import Mathlib

/-!
Verification of the news-feed ingestion pipeline
(src/news_feeds/gdelt_news/ingest.py, src/news_feeds/gdelt_news/validate.py,
src/news_feeds/yahoo_finance/ingest.py).

The Python sources are shallowly embedded as Lean functions.  Strings are
Lean strings (lists of characters); machine-independent integer arithmetic
uses Nat with explicit reduction modulo 2 ^ 32 where the hash algorithm
requires it.  External collaborators (the requests HTTP layer, tenacity,
sqlite, the filesystem) are embedded at the granularity the code observes
them: an HTTP attempt is a status code or a connection failure, the
seen-id store is the set of ids it holds, a CSV file is its list of rows.
Python exceptions become an explicit datatype and fallible code returns
Except values.
-/

deriving instance DecidableEq for Except

/-! ## Python string primitives

Models of the Python `str` operations the sources use, restricted to the
ASCII behaviour those call sites rely on (all literals in the sources are
ASCII). -/

namespace Py

/-- Model of Python `str.lower` (ASCII range). -/
def pyLower (s : List Char) : List Char := s.map Char.toLower

/-- Characters removed by Python `str.strip()` with no argument
(ASCII whitespace). -/
def isPySpace (c : Char) : Bool :=
  c = ' ' || c = '\t' || c = '\n' || c = '\r' || c = '\x0b' || c = '\x0c'

/-- Model of Python `str.strip()`: drop whitespace from both ends. -/
def pyStrip (s : List Char) : List Char :=
  ((s.dropWhile isPySpace).reverse.dropWhile isPySpace).reverse

/-- Is `small` a prefix of `big`? -/
def startsWith : List Char → List Char → Bool
  | [], _ => true
  | _ :: _, [] => false
  | a :: as_, b :: bs => a = b && startsWith as_ bs

/-- Model of the Python substring test `needle in hay`. -/
def strContains (hay needle : List Char) : Bool :=
  match hay with
  | [] => startsWith needle []
  | _ :: t => startsWith needle hay || strContains t needle

/-- Split a list at the first occurrence of a delimiter (`s.find(d)` with
the tail after the delimiter): the Python idiom `s.split(d, 1)` guarded by
`d in s`. -/
def breakAt (d : Char) : List Char → Option (List Char × List Char)
  | [] => none
  | c :: rest =>
    if c = d then some ([], rest)
    else
      match breakAt d rest with
      | none => none
      | some (b, a) => some (c :: b, a)

/-- Split a list at the last occurrence of a delimiter (`s.rfind(d)`). -/
def breakAtLast (d : Char) : List Char → Option (List Char × List Char)
  | [] => none
  | c :: rest =>
    match breakAtLast d rest with
    | some (b, a) => some (c :: b, a)
    | none => if c = d then some ([], rest) else none

/-- `str.strip()` on a whole String. -/
def pyStripS (s : String) : String := String.mk (pyStrip s.data)

end Py

/-! ## SHA-256

Model of `hashlib.sha256(...).hexdigest()` as used by `compute_id` in both
ingest scripts, following FIPS 180-4.  Words are Nat values reduced
modulo 2 ^ 32. -/

namespace SHA256

/-- 2 ^ 32, the word modulus. -/
def M32 : Nat := 4294967296

/-- Addition modulo 2 ^ 32. -/
def add32 (a b : Nat) : Nat := (a + b) % M32

/-- Right rotation of a 32-bit word. -/
def rotr (n x : Nat) : Nat := ((x >>> n) ||| (x <<< (32 - n))) % M32

/-- Logical right shift. -/
def shr (n x : Nat) : Nat := x >>> n

/-- Bitwise complement of a 32-bit word. -/
def not32 (x : Nat) : Nat := x ^^^ (M32 - 1)

def bigSigma0 (x : Nat) : Nat := (rotr 2 x) ^^^ (rotr 13 x) ^^^ (rotr 22 x)

def bigSigma1 (x : Nat) : Nat := (rotr 6 x) ^^^ (rotr 11 x) ^^^ (rotr 25 x)

def smallSigma0 (x : Nat) : Nat := (rotr 7 x) ^^^ (rotr 18 x) ^^^ (shr 3 x)

def smallSigma1 (x : Nat) : Nat := (rotr 17 x) ^^^ (rotr 19 x) ^^^ (shr 10 x)

def ch (x y z : Nat) : Nat := (x &&& y) ^^^ ((not32 x) &&& z)

def maj (x y z : Nat) : Nat := (x &&& y) ^^^ (x &&& z) ^^^ (y &&& z)

/-- The 64 round constants. -/
def K : List Nat :=
  [0x428a2f98, 0x71374491, 0xb5c0fbcf, 0xe9b5dba5,
   0x3956c25b, 0x59f111f1, 0x923f82a4, 0xab1c5ed5] ++
  [0xd807aa98, 0x12835b01, 0x243185be, 0x550c7dc3,
   0x72be5d74, 0x80deb1fe, 0x9bdc06a7, 0xc19bf174] ++
  [0xe49b69c1, 0xefbe4786, 0x0fc19dc6, 0x240ca1cc,
   0x2de92c6f, 0x4a7484aa, 0x5cb0a9dc, 0x76f988da] ++
  [0x983e5152, 0xa831c66d, 0xb00327c8, 0xbf597fc7,
   0xc6e00bf3, 0xd5a79147, 0x06ca6351, 0x14292967] ++
  [0x27b70a85, 0x2e1b2138, 0x4d2c6dfc, 0x53380d13,
   0x650a7354, 0x766a0abb, 0x81c2c92e, 0x92722c85] ++
  [0xa2bfe8a1, 0xa81a664b, 0xc24b8b70, 0xc76c51a3,
   0xd192e819, 0xd6990624, 0xf40e3585, 0x106aa070] ++
  [0x19a4c116, 0x1e376c08, 0x2748774c, 0x34b0bcb5,
   0x391c0cb3, 0x4ed8aa4a, 0x5b9cca4f, 0x682e6ff3] ++
  [0x748f82ee, 0x78a5636f, 0x84c87814, 0x8cc70208,
   0x90befffa, 0xa4506ceb, 0xbef9a3f7, 0xc67178f2]

/-- The eight working variables of the compression function. -/
structure Hash where
  a : Nat
  b : Nat
  c : Nat
  d : Nat
  e : Nat
  f : Nat
  g : Nat
  h : Nat

/-- Initial hash value. -/
def initH : Hash :=
  ⟨0x6a09e667, 0xbb67ae85, 0x3c6ef372, 0xa54ff53a,
   0x510e527f, 0x9b05688c, 0x1f83d9ab, 0x5be0cd19⟩

/-- Extend a 16-word block, appending `k` further schedule words. -/
def extendSchedule : Nat → List Nat → List Nat
  | 0, ws => ws
  | k + 1, ws =>
    let n := ws.length
    let w := add32 (add32 (smallSigma1 (ws.getD (n - 2) 0)) (ws.getD (n - 7) 0))
                   (add32 (smallSigma0 (ws.getD (n - 15) 0)) (ws.getD (n - 16) 0))
    extendSchedule k (ws ++ [w])

/-- One round of the compression function on round input (kᵢ, wᵢ). -/
def round (st : Hash) (kw : Nat × Nat) : Hash :=
  let t1 := add32 st.h (add32 (bigSigma1 st.e) (add32 (ch st.e st.f st.g) (add32 kw.1 kw.2)))
  let t2 := add32 (bigSigma0 st.a) (maj st.a st.b st.c)
  ⟨add32 t1 t2, st.a, st.b, st.c, add32 st.d t1, st.e, st.f, st.g⟩

/-- Compress one 16-word block into the running hash. -/
def compress (st : Hash) (block : List Nat) : Hash :=
  let ws := extendSchedule 48 block
  let r := (K.zip ws).foldl round st
  ⟨add32 st.a r.a, add32 st.b r.b, add32 st.c r.c, add32 st.d r.d,
   add32 st.e r.e, add32 st.f r.f, add32 st.g r.g, add32 st.h r.h⟩

/-- Pad a byte message per FIPS 180-4: append 0x80, zeros to 56 mod 64,
then the bit length as eight big-endian bytes. -/
def padMessage (msg : List Nat) : List Nat :=
  let L := msg.length
  let zeros := (120 - (L + 1) % 64) % 64
  let bits := L * 8
  msg ++ [0x80] ++ List.replicate zeros 0 ++
    [(bits >>> 56) % 256, (bits >>> 48) % 256, (bits >>> 40) % 256, (bits >>> 32) % 256,
     (bits >>> 24) % 256, (bits >>> 16) % 256, (bits >>> 8) % 256, bits % 256]

/-- Split a byte list into 64-byte blocks (the first argument is fuel,
instantiated with the list length, so that recursion is structural). -/
def chunksGo : Nat → List Nat → List (List Nat)
  | 0, _ => []
  | _ + 1, [] => []
  | fuel + 1, l@(_ :: _) => l.take 64 :: chunksGo fuel (l.drop 64)

/-- Split a byte list into 64-byte blocks. -/
def chunks64 (l : List Nat) : List (List Nat) := chunksGo l.length l

/-- Combine bytes into big-endian 32-bit words. -/
def toWords : List Nat → List Nat
  | b0 :: b1 :: b2 :: b3 :: rest =>
    ((b0 <<< 24) + (b1 <<< 16) + (b2 <<< 8) + b3) :: toWords rest
  | _ => []

/-- Big-endian bytes of a 32-bit word. -/
def wordBytes (w : Nat) : List Nat :=
  [(w >>> 24) % 256, (w >>> 16) % 256, (w >>> 8) % 256, w % 256]

/-- SHA-256 of a byte message, as 32 bytes. -/
def sha256 (msg : List Nat) : List Nat :=
  let final := (chunks64 (padMessage msg)).foldl (fun st b => compress st (toWords b)) initH
  wordBytes final.a ++ wordBytes final.b ++ wordBytes final.c ++ wordBytes final.d ++
  wordBytes final.e ++ wordBytes final.f ++ wordBytes final.g ++ wordBytes final.h

/-- The lowercase hexadecimal alphabet. -/
def hexChars : List Char :=
  ['0', '1', '2', '3', '4', '5', '6', '7'] ++
  ['8', '9', 'a', 'b', 'c', 'd', 'e', 'f']

/-- Two lowercase hex characters of a byte. -/
def hexByte (b : Nat) : List Char :=
  [hexChars.getD ((b >>> 4) % 16) '0', hexChars.getD (b % 16) '0']

/-- Lowercase hex rendering of a byte list, as `bytes.hex` /
`hashlib...hexdigest` produce. -/
def toHex (bs : List Nat) : List Char := (bs.map hexByte).flatten

/-- UTF-8 bytes of one character (model of `str.encode("utf-8")`,
per character). -/
def utf8Char (c : Char) : List Nat :=
  let n := c.toNat
  if n < 0x80 then [n]
  else if n < 0x800 then
    [0xc0 ||| (n >>> 6), 0x80 ||| (n &&& 0x3f)]
  else if n < 0x10000 then
    [0xe0 ||| (n >>> 12), 0x80 ||| ((n >>> 6) &&& 0x3f), 0x80 ||| (n &&& 0x3f)]
  else
    [0xf0 ||| (n >>> 18), 0x80 ||| ((n >>> 12) &&& 0x3f),
     0x80 ||| ((n >>> 6) &&& 0x3f), 0x80 ||| (n &&& 0x3f)]

/-- UTF-8 encoding of a character list (model of `str.encode("utf-8")`). -/
def utf8Bytes (s : List Char) : List Nat := (s.map utf8Char).flatten

/-- Model of `hashlib.sha256(s.encode("utf-8")).hexdigest()`. -/
def sha256HexOfString (s : String) : String :=
  String.mk (toHex (sha256 (utf8Bytes s.data)))

end SHA256

/-! ## urllib.parse

Model of the functions of CPython 3.11 `urllib.parse` that
`normalize_link` uses in both ingest scripts: `urlsplit`, `urlparse`,
`urlunsplit`, `urlunparse` and `urljoin`, together with the helpers
`_splitnetloc` and `_splitparams` and the scheme classification lists.
The model is total: the ValueError paths of `urlsplit` (unbalanced
IPv6 brackets, non-ASCII netloc tricks) are elided, so the model covers
exactly the inputs on which CPython returns normally.  `allow_fragments`
is `True` at every call site of the sources and is specialized away. -/

namespace Urllib

/-- WHATWG C0 control or space: codepoints 0x00 through 0x20. -/
def isC0OrSpace (c : Char) : Bool := c.toNat ≤ 0x20

/-- The unsafe bytes `urlsplit` removes everywhere: tab, CR, LF. -/
def isUnsafeByte (c : Char) : Bool := c = '\t' || c = '\r' || c = '\n'

/-- `url.lstrip(_WHATWG_C0_CONTROL_OR_SPACE)` followed by removal of the
unsafe bytes, as `urlsplit` applies to its url argument. -/
def sanitizeUrl (l : List Char) : List Char :=
  (l.dropWhile isC0OrSpace).filter (fun c => !isUnsafeByte c)

/-- `scheme.strip(_WHATWG_C0_CONTROL_OR_SPACE)` followed by removal of the
unsafe bytes, as `urlsplit` applies to its default-scheme argument. -/
def sanitizeScheme (l : List Char) : List Char :=
  (((l.dropWhile isC0OrSpace).reverse.dropWhile isC0OrSpace).reverse).filter
    (fun c => !isUnsafeByte c)

/-- Membership in `scheme_chars` (ASCII letters, digits, `+`, `-`, `.`). -/
def schemeChar (c : Char) : Bool :=
  ('a' ≤ c && c ≤ 'z') || ('A' ≤ c && c ≤ 'Z') || ('0' ≤ c && c ≤ '9') ||
    c = '+' || c = '-' || c = '.'

/-- `c.isascii() and c.isalpha()`. -/
def asciiAlpha (c : Char) : Bool := ('a' ≤ c && c ≤ 'z') || ('A' ≤ c && c ≤ 'Z')

/-- The result type of `urlsplit`. -/
structure SplitResult where
  scheme : List Char
  netloc : List Char
  path : List Char
  query : List Char
  fragment : List Char
deriving DecidableEq, Repr

/-- The result type of `urlparse`. -/
structure ParseResult where
  scheme : List Char
  netloc : List Char
  path : List Char
  params : List Char
  query : List Char
  fragment : List Char
deriving DecidableEq, Repr

/-- The scheme classification lists of `urllib.parse` (CPython 3.11). -/
def uses_relative : List (List Char) :=
  (["", "ftp", "http", "gopher", "nntp", "imap",
    "wais", "file", "https", "shttp", "mms",
    "prospero", "rtsp", "rtsps", "rtspu", "sftp",
    "svn", "svn+ssh", "ws", "wss"] : List String).map String.data

def uses_netloc : List (List Char) :=
  (["", "ftp", "http", "gopher", "nntp", "telnet",
    "imap", "wais", "file", "mms", "https", "shttp",
    "snews", "prospero", "rtsp", "rtsps", "rtspu", "rsync",
    "svn", "svn+ssh", "sftp", "nfs", "git", "git+ssh",
    "ws", "wss"] : List String).map String.data

def uses_params : List (List Char) :=
  (["", "ftp", "hdl", "prospero", "http", "imap",
    "https", "shttp", "rtsp", "rtsps", "rtspu", "sip",
    "sips", "mms", "sftp", "tel"] : List String).map String.data

/-- The scheme-detection step of `urlsplit`: `i = url.find(':')` with
`i > 0`, first character ASCII alpha, every character of `url[:i]` in
`scheme_chars`; on success the scheme is lowercased and consumed. -/
def splitScheme (url : List Char) : List Char × List Char :=
  match Py.breakAt ':' url with
  | some (pre, post) =>
    if !pre.isEmpty && asciiAlpha (pre.headD ' ') && pre.all schemeChar then
      (Py.pyLower pre, post)
    else ([], url)
  | none => ([], url)

/-- `c` is one of the netloc delimiters `/?#`. -/
def netlocDelim (c : Char) : Bool := c = '/' || c = '?' || c = '#'

/-- `_splitnetloc(url, 2)` applied to `url.drop 2`: the netloc runs to the
earliest of `/?#`, the rest (delimiter included) stays in the url. -/
def splitNetloc (l : List Char) : List Char × List Char :=
  (l.takeWhile (fun c => !netlocDelim c), l.dropWhile (fun c => !netlocDelim c))

/-- `urlsplit(url, scheme, allow_fragments=True)` of CPython 3.11. -/
def urlsplit (url0 dscheme0 : List Char) : SplitResult :=
  let url1 := sanitizeUrl url0
  let dscheme := sanitizeScheme dscheme0
  let sr := splitScheme url1
  let scheme := if sr.1.isEmpty then dscheme else sr.1
  let url2 := if sr.1.isEmpty then url1 else sr.2
  let nr := if url2.take 2 = ['/', '/'] then splitNetloc (url2.drop 2) else ([], url2)
  let netloc := nr.1
  let url3 := nr.2
  let fr :=
    match Py.breakAt '#' url3 with
    | some (b, a) => (b, a)
    | none => (url3, [])
  let qr :=
    match Py.breakAt '?' fr.1 with
    | some (b, a) => (b, a)
    | none => (fr.1, [])
  ⟨scheme, netloc, qr.1, qr.2, fr.2⟩

/-- `_splitparams(url)`: split params off the last path segment. -/
def splitparams (p : List Char) : List Char × List Char :=
  if p.contains '/' then
    match Py.breakAtLast '/' p with
    | some (b, a) =>
      match Py.breakAt ';' a with
      | some (b2, a2) => (b ++ '/' :: b2, a2)
      | none => (p, [])
    | none => (p, [])
  else
    match Py.breakAt ';' p with
    | some (b, a) => (b, a)
    | none => (p, [])

/-- The `if scheme in uses_params and ';' in url` step of `urlparse`. -/
def splitParamsIfNeeded (scheme url : List Char) : List Char × List Char :=
  if uses_params.contains scheme && url.contains ';' then splitparams url
  else (url, [])

/-- The inverse step performed by `urlunparse`: rejoin path and params. -/
def joinParams (path params : List Char) : List Char :=
  if !params.isEmpty then path ++ ';' :: params else path

/-- `urlparse(url, scheme, allow_fragments=True)` of CPython 3.11. -/
def urlparse (url0 dscheme0 : List Char) : ParseResult :=
  let s := urlsplit url0 dscheme0
  let pr := splitParamsIfNeeded s.scheme s.path
  ⟨s.scheme, s.netloc, pr.1, pr.2, s.query, s.fragment⟩

/-- `urlunsplit` of CPython 3.11 (note: the netloc line also fires when
the scheme uses a netloc and the path does not already start with `//`). -/
def urlunsplit (scheme netloc url query fragment : List Char) : List Char :=
  let url :=
    if !netloc.isEmpty ||
        (!scheme.isEmpty && uses_netloc.contains scheme && url.take 2 ≠ ['/', '/']) then
      let url1 := if !url.isEmpty && url.headD ' ' ≠ '/' then '/' :: url else url
      '/' :: '/' :: (netloc ++ url1)
    else url
  let url := if !scheme.isEmpty then scheme ++ ':' :: url else url
  let url := if !query.isEmpty then url ++ '?' :: query else url
  if !fragment.isEmpty then url ++ '#' :: fragment else url

/-- `urlunparse` of CPython 3.11. -/
def urlunparse (r : ParseResult) : List Char :=
  urlunsplit r.scheme r.netloc (joinParams r.path r.params) r.query r.fragment

/-- `''.split('/')` semantics: always at least one (possibly empty) part. -/
def splitOnSlash : List Char → List (List Char)
  | [] => [[]]
  | c :: rest =>
    if c = '/' then [] :: splitOnSlash rest
    else
      match splitOnSlash rest with
      | [] => [[c]]
      | s :: ss => (c :: s) :: ss

/-- `'/'.join(parts)`. -/
def joinSlash : List (List Char) → List Char
  | [] => []
  | [x] => x
  | x :: rest => x ++ '/' :: joinSlash rest

/-- `segments[1:-1] = filter(None, segments[1:-1])`: drop empty segments
other than the first and the last. -/
def filterMid (l : List (List Char)) : List (List Char) :=
  match l with
  | [] => []
  | [x] => [x]
  | x :: rest =>
    x :: ((rest.dropLast.filter fun s => !s.isEmpty) ++ rest.drop (rest.length - 1))

/-- The `..` / `.` resolution loop of `urljoin` (pop on `..`, skip `.`). -/
def resolveSegments (segments : List (List Char)) : List (List Char) :=
  segments.foldl
    (fun acc seg =>
      if seg = ['.', '.'] then acc.dropLast
      else if seg = ['.'] then acc
      else acc ++ [seg])
    []

/-- `urljoin(base, url, allow_fragments=True)` of CPython 3.11. -/
def urljoin (base url : List Char) : List Char :=
  if base.isEmpty then url
  else if url.isEmpty then base
  else
    let b := urlparse base []
    let r := urlparse url b.scheme
    if r.scheme ≠ b.scheme || !uses_relative.contains r.scheme then url
    else if uses_netloc.contains r.scheme && !r.netloc.isEmpty then
      urlunparse ⟨r.scheme, r.netloc, r.path, r.params, r.query, r.fragment⟩
    else
      let netloc := if uses_netloc.contains r.scheme then b.netloc else r.netloc
      if r.path.isEmpty && r.params.isEmpty then
        let query := if r.query.isEmpty then b.query else r.query
        urlunparse ⟨r.scheme, netloc, b.path, b.params, query, r.fragment⟩
      else
        let baseParts0 := splitOnSlash b.path
        let baseParts :=
          if baseParts0.getLast? ≠ some [] then baseParts0.dropLast else baseParts0
        let segments :=
          if r.path.headD ' ' = '/' then splitOnSlash r.path
          else filterMid (baseParts ++ splitOnSlash r.path)
        let resolved := resolveSegments segments
        let resolved :=
          if segments.getLast? = some ['.'] || segments.getLast? = some ['.', '.'] then
            resolved ++ [[]]
          else resolved
        let joined := joinSlash resolved
        let path := if joined.isEmpty then ['/'] else joined
        urlunparse ⟨r.scheme, netloc, path, r.params, r.query, r.fragment⟩

/-- A syntactically well-formed, already-lowercased scheme, as the
scheme-detection step of `urlsplit` produces it. -/
def SchemeOK (s : List Char) : Prop :=
  s ≠ [] ∧ asciiAlpha (s.headD ' ') = true ∧ s.all schemeChar = true ∧
    Py.pyLower s = s

/-- No query or fragment delimiter occurs in the list. -/
def noQF (l : List Char) : Bool := l.all (fun c => !(c = '#' || c = '?'))

/-- None of the unsafe bytes `urlsplit` removes occurs in the list. -/
def clean (l : List Char) : Bool := l.all (fun c => !isUnsafeByte c)

end Urllib

/-! ## Exceptions and the HTTP layer

The exception classes the sources can observe, and the observable outcome
of one HTTP attempt.  `httpError` is `requests.HTTPError` (a subclass of
`requests.RequestException`) with its optional attached response status;
`requestException` is any other `requests.RequestException` (connection
error, timeout); `skipUrl` is the `SkipUrl` class the Yahoo script defines
(a direct `Exception` subclass, not a requests exception); `retryError` is
`tenacity.RetryError`, raised when retries exhaust. -/

inductive PyExc where
  | skipUrl : PyExc
  | httpError : Option Nat → PyExc
  | requestException : Option Nat → PyExc
  | retryError : PyExc
  | otherError : PyExc
deriving DecidableEq, Repr

/-- `isinstance(e, requests.RequestException)`. -/
def PyExc.isRequestException : PyExc → Bool
  | .httpError _ => true
  | .requestException _ => true
  | _ => false

/-- What the network yields on one HTTP attempt: a response with a status
code and (for 2xx) a usable document of type `α`, or a connection-level
failure with no response at all. -/
inductive Attempt (α : Type) where
  | resp : Nat → α → Attempt α
  | connFail : Attempt α
deriving Repr

/-- `response.raise_for_status()`: raises `requests.HTTPError` carrying the
response exactly for status codes in [400, 600). -/
def raiseForStatus (status : Nat) : Option PyExc :=
  if 400 ≤ status && status < 600 then some (.httpError (some status)) else none

/-- The retry driver that the `@retry(... stop_after_attempt(3),
retry_if_exception(should_retry))` decorator wraps around a fetch body:
run attempts in order; a non-retryable exception is re-raised as is; when
the attempt list (of length 3 at the call sites) exhausts while the last
exception was retryable, `tenacity.RetryError` is raised. -/
def tenacityFetch {α β : Type} (shouldRetry : PyExc → Bool)
    (body : Attempt β → Except PyExc α) : List (Attempt β) → Except PyExc α
  | [] => .error .retryError
  | a :: rest =>
    match body a with
    | .ok d => .ok d
    | .error e => if shouldRetry e then tenacityFetch shouldRetry body rest else .error e

/-! ## The GDELT ingest script (src/news_feeds/gdelt_news/ingest.py) -/

namespace Gdelt

/-- `FeedConfig` of the GDELT script. -/
structure FeedConfig where
  name : String
  query : String
deriving DecidableEq, Repr

/-- `should_retry` of the GDELT script. -/
def should_retry : PyExc → Bool
  | .httpError (some s) => s = 429 || 500 ≤ s
  | .httpError none => true
  | .requestException r => r.isNone
  | _ => false

/-- One article of the GDELT JSON payload, at the granularity
`ingest_feed` reads it (`article.get(...)`; `none` is an absent key). -/
structure Article where
  url : Option String
  title : Option String
  domain : Option String
  sourcecountry : Option String
  sourcecollection : Option String
  snippet : Option String
  seendate : Option String
deriving DecidableEq, Repr

/-- The JSON payload at the granularity the script reads it:
`payload.get("articles", []) or []` (`none` models a missing or null
article list). -/
structure Payload where
  articles : Option (List Article)
deriving Repr

/-- The body of `fetch_json` for one HTTP attempt: 429/5xx raise (and are
then subject to retry), other 4xx degrade to `None`, anything else returns
the decoded payload. -/
def fetchJsonAttempt : Attempt Payload → Except PyExc (Option Payload)
  | .connFail => .error (.requestException none)
  | .resp s d =>
    match (if s = 429 || 500 ≤ s then raiseForStatus s else none) with
    | some e => .error e
    | none => if 400 ≤ s && s < 500 then .ok none else .ok (some d)

/-- `fetch_json` with its retry decorator (three attempts). -/
def fetch_json (attempts : List (Attempt Payload)) : Except PyExc (Option Payload) :=
  tenacityFetch should_retry fetchJsonAttempt (attempts.take 3)

/-- `normalize_link` of the GDELT script. -/
def normalize_link (link : String) : String :=
  let parsed := Urllib.urlparse link.data []
  String.mk (Urllib.urlunparse
    ⟨parsed.scheme, parsed.netloc, parsed.path, parsed.params, [], []⟩)

/-- `compute_id` of the GDELT script:
`hashlib.sha256(normalized_link.encode("utf-8")).hexdigest()`. -/
def compute_id (normalized_link : String) : String :=
  String.mk (SHA256.toHex (SHA256.sha256 (SHA256.utf8Bytes normalized_link.data)))

/-- `parse_articles`: missing payload or missing/null article list give
the empty list. -/
def parse_articles (payload : Option Payload) : List Article :=
  match payload with
  | none => []
  | some p => p.articles.getD []

/-- `x or y` on an optional string (falsy = absent or empty). -/
def orFalsy (a : Option String) (b : String) : String :=
  match a with
  | some s => if s = "" then b else s
  | none => b

/-- The state the per-feed loop threads: the seen-id store plus the run
counters and the batch of new rows. -/
structure RunState where
  seen : List String
  newCount : Nat
  skipped : Nat
  rows : List (List String)
deriving DecidableEq, Repr

/-- The body of the per-article loop of `ingest_feed`: drop articles with
a falsy url or blank title, skip ids already in the store, otherwise
insert the id and append the row. -/
def ingestStep (query fetched_at : String) (st : RunState) (article : Article) : RunState :=
  let link := article.url.getD ""
  let title := Py.pyStripS (article.title.getD "")
  if link = "" || title = "" then st
  else
    let normalized_link := normalize_link link
    let feed_id := compute_id normalized_link
    if st.seen.contains feed_id then
      ⟨st.seen, st.newCount, st.skipped + 1, st.rows⟩
    else
      let source := orFalsy article.domain
        (orFalsy article.sourcecountry (orFalsy article.sourcecollection "GDELT"))
      let summary := article.snippet.getD ""
      let published := article.seendate.getD ""
      ⟨feed_id :: st.seen, st.newCount + 1, st.skipped,
       st.rows ++ [[feed_id, title, normalized_link, published, source, summary,
                    query, fetched_at]]⟩

/-- `ingest_feed` of the GDELT script, from the fetch result on: a fetch
exception propagates, a degraded (`None`) payload contributes nothing,
otherwise the article loop runs over the given seen-id store. -/
def ingest_feed (feed : FeedConfig) (fetchRes : Except PyExc (Option Payload))
    (seen0 : List String) (fetched_at : String) : Except PyExc RunState :=
  match fetchRes with
  | .error e => .error e
  | .ok payload =>
    match payload with
    | none => .ok ⟨seen0, 0, 0, []⟩
    | some _ =>
      .ok ((parse_articles payload).foldl (ingestStep feed.query fetched_at) ⟨seen0, 0, 0, []⟩)

/-- The feed loop of `main`: each feed outcome is consumed in order; an
exception is caught, logged and the loop continues; at the end `main`
returns exit code 0.  Result: (exit code, total new, feeds attempted). -/
def feedLoop : List (Except PyExc Nat) → Nat → Nat → Nat × Nat × Nat
  | [], total, processed => (0, total, processed)
  | r :: rest, total, processed =>
    match r with
    | .ok n => feedLoop rest (total + n) (processed + 1)
    | .error _ => feedLoop rest total (processed + 1)

/-- The driver of the GDELT script over the per-feed outcomes. -/
def mainLoop (results : List (Except PyExc Nat)) : Nat × Nat × Nat :=
  feedLoop results 0 0

end Gdelt

/-! ## The Yahoo Finance ingest script (src/news_feeds/yahoo_finance/ingest.py) -/

namespace Yahoo

/-- `FeedConfig` of the Yahoo script. -/
structure FeedConfig where
  name : String
  ticker : String
  query : String
deriving DecidableEq, Repr

/-- `NewsItem` of the Yahoo script. -/
structure NewsItem where
  title : String
  link : String
  published : String
  source : String
  summary : String
deriving DecidableEq, Repr

/-- `BASE_URL.format(ticker=feed.ticker)`. -/
def base_url (ticker : String) : String :=
  "https://finance.yahoo.com/quote/" ++ ticker ++ "/news/"

/-- `FALLBACK_URL`. -/
def FALLBACK_URL : String := "https://finance.yahoo.com/topic/stock-market-news/"

/-- `should_retry` of the Yahoo script: `SkipUrl` never retries; an
`HTTPError` with a response retries exactly on 5xx; any other requests
exception retries. -/
def should_retry : PyExc → Bool
  | .skipUrl => false
  | .httpError (some s) => 500 ≤ s && s < 600
  | .httpError none => true
  | .requestException _ => true
  | _ => false

/-- The body of `fetch_url` for one HTTP attempt: 404 raises `SkipUrl`,
`raise_for_status` raises `HTTPError` for other 4xx/5xx, a 2xx yields the
document. -/
def fetchUrlAttempt {α : Type} : Attempt α → Except PyExc α
  | .connFail => .error (.requestException none)
  | .resp 404 _ => .error .skipUrl
  | .resp s d =>
    match raiseForStatus s with
    | some e => .error e
    | none => .ok d

/-- `fetch_url` with its retry decorator (three attempts); `α` is whatever
the caller reads out of the fetched document. -/
def fetch_url {α : Type} (attempts : List (Attempt α)) : Except PyExc α :=
  tenacityFetch should_retry fetchUrlAttempt (attempts.take 3)

/-- `normalize_link` of the Yahoo script: resolve against the base URL,
then strip query and fragment. -/
def normalize_link (link : String) (base : String) : String :=
  let absolute := Urllib.urljoin base.data link.data
  let parsed := Urllib.urlparse absolute []
  String.mk (Urllib.urlunparse
    ⟨parsed.scheme, parsed.netloc, parsed.path, parsed.params, [], []⟩)

/-- `compute_id` of the Yahoo script:
`hashlib.sha256(normalized_link.encode("utf-8")).hexdigest()`. -/
def compute_id (normalized_link : String) : String :=
  String.mk (SHA256.toHex (SHA256.sha256 (SHA256.utf8Bytes normalized_link.data)))

/-- The quote-scanning loop of `extract_query_terms`; the fuel argument is
instantiated with the string length (each iteration consumes at least the
two quote characters), keeping the recursion structural. -/
def extractTermsGo : Nat → List Char → List (List Char)
  | 0, _ => []
  | fuel + 1, query =>
    match Py.breakAt '"' query with
    | none => []
    | some (_, afterOpen) =>
      match Py.breakAt '"' afterOpen with
      | none => []
      | some (phrase, rest) =>
        let ph := Py.pyStrip phrase
        if ph.isEmpty then extractTermsGo fuel rest
        else Py.pyLower ph :: extractTermsGo fuel rest

/-- `extract_query_terms`: scan matched double-quote pairs left to right,
strip each phrase, drop empty ones, lowercase the rest; an unterminated
quote ends the scan. -/
def extract_query_terms (query : String) : List (List Char) :=
  extractTermsGo query.data.length query.data

/-- `matches_query`: the lowercased `"title summary"` text contains the
lowercased ticker, or contains some extracted query phrase. -/
def matches_query (item : NewsItem) (feed : FeedConfig) : Bool :=
  let text := Py.pyLower (item.title ++ " " ++ item.summary).data
  if Py.strContains text (Py.pyLower feed.ticker.data) then true
  else (extract_query_terms feed.query).any (fun phrase => Py.strContains text phrase)

/-- What `enrich_summary` observes in a fetched article page: the
`<meta name="description">` tag if present (with its optional `content`
attribute), else the `<meta property="og:description">` tag. -/
structure MetaPage where
  nameDescription : Option (Option String)
  ogDescription : Option (Option String)
deriving DecidableEq, Repr

/-- `enrich_summary`: a non-empty summary returns the item untouched; the
single fetch of the item's own link is guarded by
`except requests.RequestException` only, so `SkipUrl` (404) and
`RetryError` (retry exhaustion) propagate; on success, the summary is set
from the first meta-description tag with truthy content. -/
def enrich_summary (item : NewsItem) (attempts : List (Attempt MetaPage)) :
    Except PyExc NewsItem :=
  if item.summary ≠ "" then .ok item
  else
    match fetch_url attempts with
    | .error e => if e.isRequestException then .ok item else .error e
    | .ok page =>
      let meta :=
        match page.nameDescription with
        | some c => some c
        | none => page.ogDescription
      match meta with
      | some (some content) =>
        if content ≠ "" then
          .ok ⟨item.title, item.link, item.published, item.source, Py.pyStripS content⟩
        else .ok item
      | _ => .ok item

/-- The primary/fallback dispatch at the top of `ingest_feed`: `SkipUrl`
and `HTTPError` with a 4xx response fall back (and the fallback items are
filtered by `matches_query`); every other failure propagates.  `primary`
and `fallback` are the outcomes of fetching and parsing the respective
pages. -/
def select_items (feed : FeedConfig) (primary fallback : Except PyExc (List NewsItem)) :
    Except PyExc (List NewsItem) :=
  match primary with
  | .ok items => .ok items
  | .error .skipUrl =>
    match fallback with
    | .ok fitems => .ok (fitems.filter (fun it => matches_query it feed))
    | .error e => .error e
  | .error (.httpError (some s)) =>
    if 400 ≤ s && s < 500 then
      match fallback with
      | .ok fitems => .ok (fitems.filter (fun it => matches_query it feed))
      | .error e => .error e
    else .error (.httpError (some s))
  | .error e => .error e

/-- The item cap of `ingest_feed`: `items[:max_items]`, with the
truncation warning logged exactly when more than 500 items were parsed. -/
def capItems (items : List NewsItem) (max_items : Nat) : List NewsItem × Bool :=
  (items.take max_items, decide (500 < items.length))

/-- The `--max_items` default of `build_arg_parser`. -/
def max_items_default : Nat := 80

/-- The run state the per-item loop threads (seen-id store, counters,
new-row batch). -/
structure RunState where
  seen : List String
  newCount : Nat
  skipped : Nat
  rows : List (List String)
deriving DecidableEq, Repr

/-- The per-item loop of `ingest_feed`: normalize against the primary URL,
skip seen ids, otherwise enrich (an enrichment exception propagates and
aborts the feed), insert the id and append the row. -/
def ingestLoop (url feedQuery fetched_at : String)
    (enrichF : NewsItem → Except PyExc NewsItem) :
    List NewsItem → RunState → Except PyExc RunState
  | [], st => .ok st
  | item :: rest, st =>
    let normalized_link := normalize_link item.link url
    let feed_id := compute_id normalized_link
    if st.seen.contains feed_id then
      ingestLoop url feedQuery fetched_at enrichF rest
        ⟨st.seen, st.newCount, st.skipped + 1, st.rows⟩
    else
      match enrichF item with
      | .error e => .error e
      | .ok item2 =>
        ingestLoop url feedQuery fetched_at enrichF rest
          ⟨feed_id :: st.seen, st.newCount + 1, st.skipped,
           st.rows ++ [[feed_id, item2.title, normalized_link, item2.published,
                        item2.source, item2.summary, feedQuery, fetched_at]]⟩

/-- `ingest_feed` of the Yahoo script from the fetched pages on.  The
first component reports whether the truncation warning fired (logged
before the loop); the second is the loop outcome. -/
def ingest_feed (feed : FeedConfig) (primary fallback : Except PyExc (List NewsItem))
    (max_items : Nat) (enrichF : NewsItem → Except PyExc NewsItem)
    (seen0 : List String) (fetched_at : String) :
    Bool × Except PyExc RunState :=
  match select_items feed primary fallback with
  | .error e => (false, .error e)
  | .ok items0 =>
    let capped := capItems items0 max_items
    (capped.2,
     ingestLoop (base_url feed.ticker) feed.query fetched_at enrichF capped.1 ⟨seen0, 0, 0, []⟩)

/-- The feed loop of `main`: an exception is caught and logged, and then
`main` returns exit code 1 immediately, so the remaining feeds are not
attempted.  Result: (exit code, total new, feeds attempted). -/
def feedLoop : List (Except PyExc Nat) → Nat → Nat → Nat × Nat × Nat
  | [], total, processed => (0, total, processed)
  | r :: rest, total, processed =>
    match r with
    | .ok n => feedLoop rest (total + n) (processed + 1)
    | .error _ => (1, total, processed + 1)

/-- The driver of the Yahoo script over the per-feed outcomes. -/
def mainLoop (results : List (Except PyExc Nat)) : Nat × Nat × Nat :=
  feedLoop results 0 0

end Yahoo

/-! ## The validation script (src/news_feeds/gdelt_news/validate.py) -/

namespace Validate

/-- The fixed `SCHEMA` header. -/
def SCHEMA : List String :=
  ["id", "title", "link", "published", "source", "summary", "query", "fetched_at"]

/-- A data row lacks one of the `REQUIRED_FIELDS`
(`id`, `title`, `link`, `fetched_at`, at columns 0, 1, 2, 7); which of
them is reported first depends on Python set iteration order, but whether
an error is raised does not. -/
def requiredEmpty (row : List String) : Bool :=
  row.getD 0 "" = "" || row.getD 1 "" = "" || row.getD 2 "" = "" || row.getD 7 "" = ""

/-- The data-row loop of `validate_csv`, threading the set of ids seen so
far. -/
def checkRows : List String → List (List String) → Except String Unit
  | _, [] => .ok ()
  | ids, row :: rest =>
    if row.length ≠ SCHEMA.length then .error "row has wrong number of columns"
    else if requiredEmpty row then .error "row missing required field"
    else if ids.contains (row.getD 0 "") then .error "duplicate id found"
    else checkRows (row.getD 0 "" :: ids) rest

/-- `validate_csv` over the parsed CSV content: `none` is a missing file,
`some rows` the list of rows the csv reader yields (header first). -/
def validate_csv : Option (List (List String)) → Except String Unit
  | none => .error "CSV not found"
  | some [] => .error "CSV is empty"
  | some (header :: rows) =>
    if header ≠ SCHEMA then .error "CSV header mismatch"
    else checkRows [] rows

end Validate

/-! ## Specification-side definitions

Executable renderings of what the specification sentences assert, to be
compared with the code models above. -/

/-- The retry classification the specification describes: retry exactly an
HTTP error whose response status is 429 or at least 500, and a requests
exception carrying no response at all. -/
def specRetryable : PyExc → Bool
  | .httpError (some s) => s = 429 || 500 ≤ s
  | .httpError none => true
  | .requestException none => true
  | _ => false

/-- Split a character list on every occurrence of a delimiter
(`str.split` semantics: always at least one chunk). -/
def splitOn (d : Char) : List Char → List (List Char)
  | [] => [[]]
  | c :: rest =>
    if c = d then [] :: splitOn d rest
    else
      match splitOn d rest with
      | [] => [[c]]
      | s :: ss => (c :: s) :: ss

/-- Among the chunks between consecutive double quotes, the phrases of
matched quote pairs read left to right: chunk 2i+1 is a phrase exactly
when its closing quote exists, i.e. when it is not the last chunk. -/
def pairedPhrases : List (List Char) → List (List Char)
  | _ :: c1 :: rest@(_ :: _) => c1 :: pairedPhrases rest
  | _ => []

/-- The phrase extraction the specification describes: the matched-pair
phrases of the query, each stripped, empty ones dropped, lowercased. -/
def specTerms (q : List Char) : List (List Char) :=
  (((pairedPhrases (splitOn '"' q)).map Py.pyStrip).filter
    (fun p => !p.isEmpty)).map Py.pyLower

/-- The meta description `enrich_summary` would read off a fetched page:
the content of the `name="description"` tag when that tag is present,
otherwise the content of the `og:description` tag. -/
def metaDescOf (page : Yahoo.MetaPage) : Option String :=
  match page.nameDescription with
  | some c => c
  | none =>
    match page.ogDescription with
    | some c => c
    | none => none

/-- The validity predicate the specification gives for the output CSV: the
file exists, starts with the fixed schema header, every data row has 8
columns and non-empty id, title, link and fetched_at fields (columns 0, 1,
2 and 7), and ids are pairwise distinct. -/
def GoodCsv (file : Option (List (List String))) : Prop :=
  ∃ rows, file = some (Validate.SCHEMA :: rows) ∧
    (∀ row ∈ rows, row.length = 8 ∧
      row.getD 0 "" ≠ "" ∧ row.getD 1 "" ≠ "" ∧ row.getD 2 "" ≠ "" ∧ row.getD 7 "" ≠ "") ∧
    (rows.map fun r => r.getD 0 "").Nodup

/-- An article survives the `if not link or not title: continue` guard. -/
def Gdelt.validArticle (a : Gdelt.Article) : Bool :=
  !(a.url.getD "" = "" || Py.pyStripS (a.title.getD "") = "")

/-- The content id `ingest_feed` computes for an article. -/
def Gdelt.articleId (a : Gdelt.Article) : String :=
  Gdelt.compute_id (Gdelt.normalize_link (a.url.getD ""))

/-- The content id the Yahoo `ingest_feed` computes for an item, relative
to the primary page URL. -/
def Yahoo.itemId (url : String) (item : Yahoo.NewsItem) : String :=
  Yahoo.compute_id (Yahoo.normalize_link item.link url)

/-- Sum of the per-feed new-item counts over the successful feeds. -/
def okSum : List (Except PyExc Nat) → Nat
  | [] => 0
  | .ok n :: rest => n + okSum rest
  | .error _ :: rest => okSum rest

/-! ## Theorems -/

theorem Gdelt.feedLoop_spec (results : List (Except PyExc Nat)) (t p : Nat) :
    Gdelt.feedLoop results t p = (0, t + okSum results, p + results.length) := by
  induction results generalizing t p with
  | nil => simp [Gdelt.feedLoop, okSum]
  | cons r rest ih =>
    cases r <;> simp [Gdelt.feedLoop, okSum, ih] <;> omega

theorem Yahoo.feedLoop_ok (pre : List Nat) (t p : Nat) :
    Yahoo.feedLoop (pre.map Except.ok) t p = (0, t + pre.sum, p + pre.length) := by
  induction pre generalizing t p with
  | nil => simp [Yahoo.feedLoop]
  | cons n rest ih => simp [Yahoo.feedLoop, ih] ; omega

theorem Yahoo.feedLoop_error (pre : List Nat) (e : PyExc) (post : List (Except PyExc Nat))
    (t p : Nat) :
    Yahoo.feedLoop (pre.map Except.ok ++ .error e :: post) t p =
      (1, t + pre.sum, p + pre.length + 1) := by
  induction pre generalizing t p with
  | nil => simp [Yahoo.feedLoop]
  | cons n rest ih => simp [Yahoo.feedLoop, ih] ; omega

/-- C1 (amended): in the structured-API (GDELT) driver every feed outcome is
consumed: an exception is logged and skipped, the failing feed contributes
zero new items, all feeds are attempted and the exit code is 0 regardless.
In the HTML-scrape (Yahoo) driver the first failing feed is logged and then
the driver returns exit code 1 immediately, so the remaining feeds are not
attempted and the process success signal changes. -/
theorem C1_amended (results : List (Except PyExc Nat)) :
    Gdelt.mainLoop results = (0, okSum results, results.length) ∧
    (∀ (pre : List Nat) (e : PyExc) (post : List (Except PyExc Nat)),
      results = pre.map Except.ok ++ .error e :: post →
      Yahoo.mainLoop results = (1, pre.sum, pre.length + 1)) ∧
    (∀ (pre : List Nat), results = pre.map Except.ok →
      Yahoo.mainLoop results = (0, pre.sum, pre.length)) := by
  refine ⟨?_, ?_, ?_⟩
  · simpa using Gdelt.feedLoop_spec results 0 0
  · rintro pre e post rfl
    simpa using Yahoo.feedLoop_error pre e post 0 0
  · rintro pre rfl
    simpa using Yahoo.feedLoop_ok pre 0 0

theorem C1_amended_witness :
    Yahoo.mainLoop [Except.ok 5, Except.error PyExc.retryError] = (1, 5, 2) :=
  (C1_amended _).2.1 [5] PyExc.retryError [] rfl

/-- C1 (counterexample): with a first feed failing and a second succeeding,
the Yahoo driver exits 1 having attempted only one of the two feeds, while
the GDELT driver attempts both and exits 0. -/
theorem C1_counterexample :
    Yahoo.mainLoop [Except.error PyExc.retryError, Except.ok 5] = (1, 0, 1) ∧
    Gdelt.mainLoop [Except.error PyExc.retryError, Except.ok 5] = (0, 5, 2) := by
  decide

/-- C3 (counterexample): the Yahoo `should_retry` classifies an HTTP 429
as terminal, while the claimed classification retries it. -/
theorem C3_counterexample :
    Yahoo.should_retry (.httpError (some 429)) ≠ specRetryable (.httpError (some 429)) := by
  decide

/-- C3 (amended): the GDELT `should_retry` matches the claimed
classification exactly (HTTP 429 or status at least 500, or a requests
exception carrying no response); the Yahoo `should_retry` instead retries
exactly HTTP errors with a 5xx response and every non-SkipUrl requests
exception that is not an HTTPError-with-response, so it does not retry
429.  Both treat every other 4xx as terminal. -/
theorem C3_amended (e : PyExc) :
    Gdelt.should_retry e = specRetryable e ∧
    (Yahoo.should_retry e = true ↔
      ((∃ s, e = .httpError (some s) ∧ 500 ≤ s ∧ s < 600) ∨
        (e.isRequestException = true ∧ ∀ s, e ≠ .httpError (some s)))) := by
  constructor
  · cases e with
    | httpError r => cases r <;> rfl
    | requestException r => cases r <;> rfl
    | skipUrl => rfl
    | retryError => rfl
    | otherError => rfl
  · cases e with
    | httpError r =>
      cases r with
      | none => simp [Yahoo.should_retry, PyExc.isRequestException]
      | some s =>
        simp only [Yahoo.should_retry, Bool.and_eq_true, decide_eq_true_eq]
        constructor
        · intro h
          exact Or.inl ⟨s, rfl, h.1, h.2⟩
        · rintro (⟨s2, hs, h1, h2⟩ | ⟨_, hall⟩)
          · cases hs
            exact ⟨h1, h2⟩
          · exact absurd rfl (hall s)
    | requestException r => simp [Yahoo.should_retry, PyExc.isRequestException]
    | skipUrl => simp [Yahoo.should_retry, PyExc.isRequestException]
    | retryError => simp [Yahoo.should_retry, PyExc.isRequestException]
    | otherError => simp [Yahoo.should_retry, PyExc.isRequestException]

set_option maxRecDepth 100000 in
theorem SHA256.testVector_abc :
    SHA256.sha256HexOfString "abc" =
      "ba7816bf8f01cfea414140de5dae2223b00361a396177a9cb410ff61f20015ad" := by
  decide

theorem SHA256.sha256_length (msg : List Nat) : (SHA256.sha256 msg).length = 32 := by
  simp [SHA256.sha256, SHA256.wordBytes]

theorem SHA256.toHex_length (bs : List Nat) : (SHA256.toHex bs).length = 2 * bs.length := by
  induction bs with
  | nil => rfl
  | cons b rest ih =>
    simp only [SHA256.toHex, List.map_cons, List.flatten_cons, List.length_append] at *
    simp [SHA256.hexByte, ih]
    omega

theorem SHA256.hexChars_getD_mem : ∀ n, n < 16 → SHA256.hexChars.getD n '0' ∈ SHA256.hexChars := by
  decide

theorem SHA256.hexByte_mem (b : Nat) : ∀ c ∈ SHA256.hexByte b, c ∈ SHA256.hexChars := by
  intro c hc
  simp only [SHA256.hexByte, List.mem_cons, List.not_mem_nil, or_false] at hc
  rcases hc with h | h <;> subst h <;>
    exact SHA256.hexChars_getD_mem _ (Nat.mod_lt _ (by decide))

theorem SHA256.toHex_mem (bs : List Nat) : ∀ c ∈ SHA256.toHex bs, c ∈ SHA256.hexChars := by
  intro c hc
  simp only [SHA256.toHex, List.mem_flatten, List.mem_map] at hc
  obtain ⟨l, ⟨b, _, rfl⟩, hcl⟩ := hc
  exact SHA256.hexByte_mem b c hcl

theorem SHA256.hexChars_lower : ∀ c ∈ SHA256.hexChars,
    (c.isDigit || ('a' ≤ c && c ≤ 'f')) = true := by
  decide

/-- C9: `compute_id` is the lowercase hexadecimal SHA-256 digest of the
UTF-8 encoding of its input in both feed variants: the two variants agree,
the output always has 64 characters, and every character is a digit or a
lowercase letter a-f.  Determinism is immediate since `compute_id` is a
function of its input. -/
theorem C9 (s : String) :
    Gdelt.compute_id s = SHA256.sha256HexOfString s ∧
    Yahoo.compute_id s = Gdelt.compute_id s ∧
    (Gdelt.compute_id s).length = 64 ∧
    (Gdelt.compute_id s).data.all (fun c => c.isDigit || ('a' ≤ c && c ≤ 'f')) = true := by
  refine ⟨rfl, rfl, ?_, ?_⟩
  · show (String.mk (SHA256.toHex (SHA256.sha256 (SHA256.utf8Bytes s.data)))).length = 64
    simp [String.length, SHA256.toHex_length, SHA256.sha256_length]
  · rw [List.all_eq_true]
    intro c hc
    exact SHA256.hexChars_lower c (SHA256.toHex_mem _ c hc)

/-- C7: at most `max_items` items (default 80), namely the first
`max_items` in parse order, proceed from the selected item list to the
dedup loop of the Yahoo `ingest_feed`, and the truncation warning fires
exactly when the raw parsed count exceeds 500. -/
theorem C7 (items : List Yahoo.NewsItem) (m : Nat) :
    (Yahoo.capItems items m).1 = items.take m ∧
    (Yahoo.capItems items m).1.length ≤ m ∧
    ((Yahoo.capItems items m).2 = true ↔ 500 < items.length) ∧
    Yahoo.max_items_default = 80 ∧
    ∀ (feed : Yahoo.FeedConfig) (primary fallback : Except PyExc (List Yahoo.NewsItem))
      (enrichF : Yahoo.NewsItem → Except PyExc Yahoo.NewsItem)
      (seen0 : List String) (fa : String) (items0 : List Yahoo.NewsItem),
      Yahoo.select_items feed primary fallback = Except.ok items0 →
      Yahoo.ingest_feed feed primary fallback m enrichF seen0 fa =
        ((Yahoo.capItems items0 m).2,
         Yahoo.ingestLoop (Yahoo.base_url feed.ticker) feed.query fa enrichF
           (items0.take m) ⟨seen0, 0, 0, []⟩) := by
  refine ⟨rfl, ?_, ?_, rfl, ?_⟩
  · simp [Yahoo.capItems]
  · simp [Yahoo.capItems]
  · intro feed primary fallback enrichF seen0 fa items0 h
    simp [Yahoo.ingest_feed, h, Yahoo.capItems]

theorem C7_witness :
    Yahoo.ingest_feed ⟨"acme", "ACME", "q"⟩ (Except.ok []) (Except.ok []) 80
        Except.ok [] "t" =
      ((Yahoo.capItems [] 80).2,
       Yahoo.ingestLoop (Yahoo.base_url "ACME") "q" "t" Except.ok [] ⟨[], 0, 0, []⟩) :=
  (C7 [] 80).2.2.2.2 ⟨"acme", "ACME", "q"⟩ (Except.ok []) (Except.ok []) Except.ok [] "t" [] rfl

/-- C10: whenever `enrich_summary` returns an item, the title, link,
published and source fields are unchanged; the summary differs from the
input only if the summary was empty on entry and the fetched page carried
a meta description (the `name="description"` tag first, else
`og:description`) with non-empty content, in which case the new summary is
that content stripped. -/
theorem C10 (item : Yahoo.NewsItem) (attempts : List (Attempt Yahoo.MetaPage))
    (r : Yahoo.NewsItem) (h : Yahoo.enrich_summary item attempts = Except.ok r) :
    r.title = item.title ∧ r.link = item.link ∧ r.published = item.published ∧
    r.source = item.source ∧
    (r.summary ≠ item.summary →
      item.summary = "" ∧ ∃ page content,
        Yahoo.fetch_url attempts = Except.ok page ∧
        metaDescOf page = some content ∧ content ≠ "" ∧
        r.summary = Py.pyStripS content) ∧
    (item.summary = "" → ∀ page content,
      Yahoo.fetch_url attempts = Except.ok page →
      metaDescOf page = some content → content ≠ "" →
      r.summary = Py.pyStripS content) := by
  unfold Yahoo.enrich_summary at h
  by_cases hs : item.summary = ""
  · simp only [hs, ne_eq, not_true_eq_false, if_neg, ite_false] at h
    rcases hf : Yahoo.fetch_url attempts with e | page
    · rw [hf] at h
      by_cases hr : e.isRequestException = true
      · simp [hr] at h
        subst h
        refine ⟨rfl, rfl, rfl, rfl, fun hne => absurd rfl hne, ?_⟩
        intro _ page content hpage
        exact absurd hpage (by simp)
      · simp [hr] at h
    · rw [hf] at h
      rcases page with ⟨nameD, ogD⟩
      have hmeta : ∀ page2 content2,
          Except.ok (ε := PyExc) (Yahoo.MetaPage.mk nameD ogD) = Except.ok page2 →
          metaDescOf page2 = some content2 →
          metaDescOf ⟨nameD, ogD⟩ = some content2 := by
        intro page2 content2 hp hm
        cases hp
        exact hm
      rcases nameD with _ | c
      · rcases ogD with _ | c
        · simp only at h
          cases h
          refine ⟨rfl, rfl, rfl, rfl, fun hne => absurd rfl hne, ?_⟩
          intro _ page2 content2 hp hm
          have := hmeta page2 content2 hp hm
          simp [metaDescOf] at this
        · rcases c with _ | content
          · simp only at h
            cases h
            refine ⟨rfl, rfl, rfl, rfl, fun hne => absurd rfl hne, ?_⟩
            intro _ page2 content2 hp hm
            have := hmeta page2 content2 hp hm
            simp [metaDescOf] at this
          · by_cases hct : content = ""
            · subst hct
              simp only [ne_eq, not_true_eq_false, if_neg, ite_false, not_false_eq_true,
                if_true] at h
              cases h
              refine ⟨rfl, rfl, rfl, rfl, fun hne => absurd rfl hne, ?_⟩
              intro _ page2 content2 hp hm hne2
              have := hmeta page2 content2 hp hm
              simp [metaDescOf] at this
              subst this
              exact absurd rfl hne2
            · simp only [ne_eq, hct, not_false_eq_true, if_true, ite_true] at h
              cases h
              refine ⟨rfl, rfl, rfl, rfl, ?_, ?_⟩
              · intro _
                exact ⟨hs, ⟨none, some (some content)⟩, content, rfl, rfl, hct, rfl⟩
              · intro _ page2 content2 hp hm _
                have := hmeta page2 content2 hp hm
                simp [metaDescOf] at this
                subst this
                rfl
      · rcases c with _ | content
        · simp only at h
          cases h
          refine ⟨rfl, rfl, rfl, rfl, fun hne => absurd rfl hne, ?_⟩
          intro _ page2 content2 hp hm
          have := hmeta page2 content2 hp hm
          simp [metaDescOf] at this
        · by_cases hct : content = ""
          · subst hct
            simp only [ne_eq, not_true_eq_false, if_neg, ite_false, not_false_eq_true,
              if_true] at h
            cases h
            refine ⟨rfl, rfl, rfl, rfl, fun hne => absurd rfl hne, ?_⟩
            intro _ page2 content2 hp hm hne2
            have := hmeta page2 content2 hp hm
            simp [metaDescOf] at this
            subst this
            exact absurd rfl hne2
          · simp only [ne_eq, hct, not_false_eq_true, if_true, ite_true] at h
            cases h
            refine ⟨rfl, rfl, rfl, rfl, ?_, ?_⟩
            · intro _
              exact ⟨hs, ⟨some (some content), ogD⟩, content, rfl, rfl, hct, rfl⟩
            · intro _ page2 content2 hp hm _
              have := hmeta page2 content2 hp hm
              simp [metaDescOf] at this
              subst this
              rfl
  · rw [if_pos hs] at h
    cases h
    exact ⟨rfl, rfl, rfl, rfl, fun hne => absurd rfl hne, fun h0 => absurd h0 hs⟩

theorem C10_witness :
    (Yahoo.NewsItem.mk "t" "l" "p" "s" "hello").summary = Py.pyStripS " hello " :=
  (C10 ⟨"t", "l", "p", "s", ""⟩ [Attempt.resp 200 ⟨some (some " hello "), none⟩]
      ⟨"t", "l", "p", "s", "hello"⟩ (by decide)).2.2.2.2.2 rfl
    ⟨some (some " hello "), none⟩ " hello " rfl rfl (by decide)

/-- C2 (amended): when the single enrichment fetch of an item fails with
an exception that is a `requests.RequestException` (e.g. an HTTPError for
a non-404 terminal status), `enrich_summary` returns the item unchanged,
with its summary still empty.  (A 404, raised as `SkipUrl`, and retry
exhaustion, raised as `RetryError`, are not `RequestException`s and
propagate instead: see the counterexample.) -/
theorem C2_amended (item : Yahoo.NewsItem) (attempts : List (Attempt Yahoo.MetaPage))
    (e : PyExc) (h1 : Yahoo.fetch_url attempts = Except.error e)
    (h2 : e.isRequestException = true) :
    Yahoo.enrich_summary item attempts = Except.ok item := by
  unfold Yahoo.enrich_summary
  by_cases hs : item.summary = ""
  · simp [hs, h1, h2]
  · rw [if_pos hs]

theorem C2_amended_witness :
    Yahoo.enrich_summary ⟨"T", "L", "P", "S", ""⟩ [Attempt.resp 403 ⟨none, none⟩] =
      Except.ok ⟨"T", "L", "P", "S", ""⟩ :=
  C2_amended _ _ (PyExc.httpError (some 403)) (by decide) (by decide)

set_option maxRecDepth 100000 in
/-- C2 (counterexample): a 404 on the enrichment fetch raises `SkipUrl`,
which `except requests.RequestException` does not catch, so
`enrich_summary` fails the item - and through the per-item loop the whole
feed; retry exhaustion (`RetryError`) likewise escapes. -/
theorem C2_counterexample :
    Yahoo.enrich_summary ⟨"T", "http://x.com/a", "", "S", ""⟩
        [Attempt.resp 404 ⟨none, none⟩] = Except.error PyExc.skipUrl ∧
    Yahoo.enrich_summary ⟨"T", "http://x.com/a", "", "S", ""⟩
        [Attempt.connFail, Attempt.connFail, Attempt.connFail] =
      Except.error PyExc.retryError ∧
    Yahoo.ingest_feed ⟨"acme", "ACME", "q"⟩
        (Except.ok [⟨"T", "http://x.com/a", "", "S", ""⟩]) (Except.ok []) 80
        (fun it => Yahoo.enrich_summary it [Attempt.resp 404 ⟨none, none⟩])
        [] "t"
      = (false, Except.error PyExc.skipUrl) := by
  refine ⟨by decide, by decide, ?_⟩
  decide

theorem Validate.checkRows_ok_iff (rows : List (List String)) (ids : List String) :
    Validate.checkRows ids rows = .ok () ↔
      ((∀ row ∈ rows, row.length = 8 ∧ Validate.requiredEmpty row = false) ∧
       (rows.map fun r => r.getD 0 "").Nodup ∧
       ∀ i ∈ rows.map (fun r => r.getD 0 ""), i ∉ ids) := by
  induction rows generalizing ids with
  | nil => simp [Validate.checkRows]
  | cons row rest ih =>
    simp only [Validate.checkRows]
    split_ifs with h1 h2 h3
    · constructor
      · intro h
        cases h
      · rintro ⟨ha, -, -⟩
        exact absurd (ha row (List.mem_cons_self _ _)).1 (by simpa using h1)
    · constructor
      · intro h
        cases h
      · rintro ⟨ha, -, -⟩
        exact absurd (ha row (List.mem_cons_self _ _)).2 (by simp [h2])
    · constructor
      · intro h
        cases h
      · rintro ⟨-, -, hc⟩
        exact absurd (List.elem_iff.mp h3)
          (hc (row.getD 0 "") (List.mem_map_of_mem _ (List.mem_cons_self _ _)))
    · rw [ih]
      have hlen : row.length = 8 := by simpa using h1
      have hreq : Validate.requiredEmpty row = false := by simpa using h2
      have hnotmem : row.getD 0 "" ∉ ids := fun hm => h3 (List.elem_iff.mpr hm)
      constructor
      · rintro ⟨ha, hb, hc⟩
        refine ⟨?_, ?_, ?_⟩
        · intro r hr
          rcases List.mem_cons.mp hr with rfl | hr2
          · exact ⟨hlen, hreq⟩
          · exact ha r hr2
        · rw [List.map_cons, List.nodup_cons]
          exact ⟨fun hmem => (hc _ hmem) (List.mem_cons_self _ _), hb⟩
        · intro i hi
          rw [List.map_cons] at hi
          rcases List.mem_cons.mp hi with rfl | hi2
          · exact hnotmem
          · intro hm
            exact (hc i hi2) (List.mem_cons_of_mem _ hm)
      · rintro ⟨ha, hb, hc⟩
        rw [List.map_cons, List.nodup_cons] at hb
        refine ⟨fun r hr => ha r (List.mem_cons_of_mem _ hr), hb.2, ?_⟩
        intro i hi hm
        rcases List.mem_cons.mp hm with rfl | hm2
        · exact hb.1 hi
        · exact (hc i (by rw [List.map_cons]; exact List.mem_cons_of_mem _ hi)) hm2

theorem Validate.requiredEmpty_false_iff (row : List String) :
    Validate.requiredEmpty row = false ↔
      (row.getD 0 "" ≠ "" ∧ row.getD 1 "" ≠ "" ∧ row.getD 2 "" ≠ "" ∧ row.getD 7 "" ≠ "") := by
  simp [Validate.requiredEmpty, and_assoc]

/-- C8: `validate_csv` returns normally exactly on files that exist, start
with the fixed schema header, and whose data rows all have 8 columns,
non-empty id, title, link and fetched_at fields, and pairwise distinct
ids; it raises on every other input. -/
theorem C8 (file : Option (List (List String))) :
    Validate.validate_csv file = .ok () ↔ GoodCsv file := by
  cases file with
  | none => simp [Validate.validate_csv, GoodCsv]
  | some rows =>
    cases rows with
    | nil => simp [Validate.validate_csv, GoodCsv]
    | cons header rest =>
      simp only [Validate.validate_csv]
      by_cases hh : header = Validate.SCHEMA
      · subst hh
        rw [if_neg (by simp)]
        rw [Validate.checkRows_ok_iff]
        constructor
        · rintro ⟨ha, hb, -⟩
          refine ⟨rest, rfl, ?_, hb⟩
          intro r hr
          have h8 := (ha r hr).1
          have hq := (Validate.requiredEmpty_false_iff r).mp (ha r hr).2
          exact ⟨h8, hq⟩
        · rintro ⟨rows2, heq, ha, hb⟩
          obtain rfl : rest = rows2 := by simpa using heq
          refine ⟨?_, hb, by simp⟩
          intro r hr
          obtain ⟨h8, hq⟩ := ha r hr
          exact ⟨h8, (Validate.requiredEmpty_false_iff r).mpr hq⟩
      · rw [if_pos hh]
        constructor
        · intro h
          cases h
        · rintro ⟨rows2, heq, -, -⟩
          simp only [Option.some.injEq, List.cons.injEq] at heq
          exact (hh heq.1).elim

theorem Py.breakAt_some (d : Char) (l b a : List Char)
    (h : Py.breakAt d l = some (b, a)) : l = b ++ d :: a ∧ d ∉ b := by
  induction l generalizing b with
  | nil => simp [Py.breakAt] at h
  | cons c rest ih =>
    simp only [Py.breakAt] at h
    by_cases hc : c = d
    · rw [if_pos hc] at h
      cases h
      simp [hc]
    · rw [if_neg hc] at h
      rcases hb : Py.breakAt d rest with - | ⟨b2, a2⟩
      · rw [hb] at h
        cases h
      · rw [hb] at h
        cases h
        obtain ⟨h1, h2⟩ := ih b2 hb
        refine ⟨by simp [h1], ?_⟩
        simp only [List.mem_cons, not_or]
        exact ⟨fun hx => hc hx.symm, h2⟩

theorem Py.breakAt_none (d : Char) (l : List Char) (h : Py.breakAt d l = none) : d ∉ l := by
  induction l with
  | nil => simp
  | cons c rest ih =>
    simp only [Py.breakAt] at h
    by_cases hc : c = d
    · rw [if_pos hc] at h
      cases h
    · rw [if_neg hc] at h
      rcases hb : Py.breakAt d rest with - | p
      · simp only [List.mem_cons, not_or]
        exact ⟨fun hx => hc (hx.symm), ih hb⟩
      · rw [hb] at h
        cases h

theorem splitOn_ne_nil (d : Char) (l : List Char) : splitOn d l ≠ [] := by
  cases l with
  | nil => simp [splitOn]
  | cons c rest =>
    simp only [splitOn]
    by_cases hc : c = d
    · simp [hc]
    · rw [if_neg hc]
      rcases h : splitOn d rest with - | ⟨s, ss⟩
      · simp
      · simp

theorem splitOn_eq_breakAt (d : Char) (l : List Char) :
    splitOn d l =
      match Py.breakAt d l with
      | none => [l]
      | some (b, a) => b :: splitOn d a := by
  induction l with
  | nil => simp [splitOn, Py.breakAt]
  | cons c rest ih =>
    simp only [splitOn, Py.breakAt]
    by_cases hc : c = d
    · simp [hc]
    · rw [if_neg hc, if_neg hc]
      rcases hb : Py.breakAt d rest with - | ⟨b, a⟩
      · rw [hb] at ih
        simp only at ih
        rw [ih]
      · rw [hb] at ih
        simp only at ih
        rw [ih]

theorem Yahoo.extractTermsGo_spec (fuel : Nat) (q : List Char) (h : q.length ≤ fuel) :
    Yahoo.extractTermsGo fuel q = specTerms q := by
  induction fuel generalizing q with
  | zero =>
    have : q = [] := List.length_eq_zero.mp (Nat.le_zero.mp h)
    subst this
    simp [Yahoo.extractTermsGo, specTerms, splitOn, pairedPhrases]
  | succ fuel ih =>
    simp only [Yahoo.extractTermsGo]
    rcases hb1 : Py.breakAt '"' q with - | ⟨c0, after1⟩
    · unfold specTerms
      rw [splitOn_eq_breakAt, hb1]
      simp [pairedPhrases]
    · rcases hb2 : Py.breakAt '"' after1 with - | ⟨c1, rest⟩
      · unfold specTerms
        rw [splitOn_eq_breakAt, hb1]
        simp only
        rw [splitOn_eq_breakAt, hb2]
        simp [pairedPhrases]
      · have hq : q = c0 ++ '"' :: after1 := (Py.breakAt_some _ _ _ _ hb1).1
        have ha : after1 = c1 ++ '"' :: rest := (Py.breakAt_some _ _ _ _ hb2).1
        have hlen : rest.length ≤ fuel := by
          subst hq ha
          simp only [List.length_append, List.length_cons] at h
          omega
        have hspec : specTerms q =
            (if (Py.pyStrip c1).isEmpty then specTerms rest
             else Py.pyLower (Py.pyStrip c1) :: specTerms rest) := by
          unfold specTerms
          rw [splitOn_eq_breakAt, hb1]
          simp only
          rw [splitOn_eq_breakAt, hb2]
          simp only
          rcases hs : splitOn '"' rest with - | ⟨s, ss⟩
          · exact absurd hs (splitOn_ne_nil _ _)
          · simp only [pairedPhrases, List.map_cons, List.filter_cons]
            by_cases he : (Py.pyStrip c1).isEmpty = true
            · simp [he, hs]
            · simp only [he, Bool.not_false, if_neg, List.map_cons, if_true]
              simp [hs]
        simp only [hb2]
        rw [hspec]
        by_cases he : (Py.pyStrip c1).isEmpty = true
        · rw [if_pos he, if_pos he]
          exact ih rest hlen
        · rw [if_neg he, if_neg he]
          rw [ih rest hlen]

/-- C6: `matches_query` holds exactly when the lowercased title+summary
text contains the lowercased ticker or some phrase produced by
`extract_query_terms`; and `extract_query_terms` yields precisely the
stripped, non-empty, lowercased phrases of matched double-quote pairs of
the query scanned left to right, an unterminated quote stopping the
scan. -/
theorem C6 (item : Yahoo.NewsItem) (feed : Yahoo.FeedConfig) :
    (Yahoo.matches_query item feed = true ↔
      (Py.strContains (Py.pyLower (item.title ++ " " ++ item.summary).data)
          (Py.pyLower feed.ticker.data) = true ∨
        ∃ p ∈ Yahoo.extract_query_terms feed.query,
          Py.strContains (Py.pyLower (item.title ++ " " ++ item.summary).data) p = true)) ∧
    Yahoo.extract_query_terms feed.query = specTerms feed.query.data := by
  constructor
  · simp only [Yahoo.matches_query]
    by_cases h : Py.strContains (Py.pyLower (item.title ++ " " ++ item.summary).data)
        (Py.pyLower feed.ticker.data) = true
    · simp [h]
    · rw [if_neg h]
      simp only [List.any_eq_true]
      constructor
      · rintro ⟨p, hp, hc⟩
        exact Or.inr ⟨p, hp, hc⟩
      · rintro (hc | ⟨p, hp, hc⟩)
        · exact absurd hc h
        · exact ⟨p, hp, hc⟩
  · exact Yahoo.extractTermsGo_spec _ _ le_rfl


theorem Gdelt.ingestStep_invalid (q fa : String) (a : Gdelt.Article)
    (h : Gdelt.validArticle a = false) (st : Gdelt.RunState) :
    Gdelt.ingestStep q fa st a = st := by
  simp only [Gdelt.validArticle, Bool.not_eq_false'] at h
  simp only [Gdelt.ingestStep]
  rw [if_pos h]

theorem Gdelt.ingestStep_skip (q fa : String) (a : Gdelt.Article)
    (hv : Gdelt.validArticle a = true) (st : Gdelt.RunState)
    (hmem : Gdelt.articleId a ∈ st.seen) :
    Gdelt.ingestStep q fa st a = ⟨st.seen, st.newCount, st.skipped + 1, st.rows⟩ := by
  simp only [Gdelt.validArticle, Bool.not_eq_true'] at hv
  simp only [Gdelt.ingestStep]
  have hc : List.contains st.seen
      (Gdelt.compute_id (Gdelt.normalize_link (a.url.getD ""))) = true :=
    List.elem_iff.mpr hmem
  rw [if_neg (by simp [hv]), if_pos hc]

theorem Gdelt.ingestStep_seen_sub (q fa : String) (a : Gdelt.Article)
    (st : Gdelt.RunState) (x : String) (hx : x ∈ st.seen) :
    x ∈ (Gdelt.ingestStep q fa st a).seen := by
  simp only [Gdelt.ingestStep]
  split_ifs <;> simp [hx]

theorem Gdelt.foldl_seen_mono (q fa : String) (arts : List Gdelt.Article)
    (st : Gdelt.RunState) (x : String) (hx : x ∈ st.seen) :
    x ∈ (arts.foldl (Gdelt.ingestStep q fa) st).seen := by
  induction arts generalizing st with
  | nil => simpa
  | cons a rest ih =>
    exact ih _ (Gdelt.ingestStep_seen_sub q fa a st x hx)

theorem Gdelt.foldl_covers (q fa : String) (arts : List Gdelt.Article)
    (st : Gdelt.RunState) :
    ∀ a ∈ arts, Gdelt.validArticle a = true →
      Gdelt.articleId a ∈ (arts.foldl (Gdelt.ingestStep q fa) st).seen := by
  induction arts generalizing st with
  | nil => simp
  | cons b rest ih =>
    intro a ha hv
    rcases List.mem_cons.mp ha with rfl | ha2
    · simp only [List.foldl_cons]
      apply Gdelt.foldl_seen_mono
      simp only [Gdelt.validArticle, Bool.not_eq_true'] at hv
      simp only [Gdelt.ingestStep]
      rw [if_neg (by simp [hv])]
      by_cases hc : st.seen.contains
          (Gdelt.compute_id (Gdelt.normalize_link (a.url.getD ""))) = true
      · rw [if_pos hc]
        exact List.elem_iff.mp hc
      · rw [if_neg hc]
        exact List.mem_cons_self _ _
    · exact ih _ a ha2 hv

theorem Gdelt.foldl_counts (q fa : String) (arts : List Gdelt.Article)
    (st : Gdelt.RunState) :
    (arts.foldl (Gdelt.ingestStep q fa) st).newCount +
        (arts.foldl (Gdelt.ingestStep q fa) st).skipped =
      st.newCount + st.skipped + arts.countP Gdelt.validArticle := by
  induction arts generalizing st with
  | nil => simp
  | cons a rest ih =>
    simp only [List.foldl_cons]
    rw [ih]
    rcases hv : Gdelt.validArticle a with - | -
    · rw [Gdelt.ingestStep_invalid q fa a hv]
      simp [List.countP_cons, hv]
    · simp only [List.countP_cons, hv, if_pos]
      simp only [Gdelt.validArticle, Bool.not_eq_true'] at hv
      simp only [Gdelt.ingestStep]
      rw [if_neg (by simp [hv])]
      split_ifs <;> simp <;> omega

theorem Gdelt.foldl_rerun_skip (q fa : String) (arts : List Gdelt.Article)
    (big : List String) (hcov : ∀ a ∈ arts, Gdelt.validArticle a = true →
      Gdelt.articleId a ∈ big) (n k : Nat) (r : List (List String)) :
    arts.foldl (Gdelt.ingestStep q fa) ⟨big, n, k, r⟩ =
      ⟨big, n, k + arts.countP Gdelt.validArticle, r⟩ := by
  induction arts generalizing k with
  | nil => simp
  | cons a rest ih =>
    simp only [List.foldl_cons]
    rcases hv : Gdelt.validArticle a with - | -
    · rw [Gdelt.ingestStep_invalid q fa a hv]
      rw [ih (fun b hb => hcov b (List.mem_cons_of_mem _ hb)) k]
      simp [List.countP_cons, hv]
    · rw [Gdelt.ingestStep_skip q fa a hv _ (hcov a (List.mem_cons_self _ _) hv)]
      rw [ih (fun b hb => hcov b (List.mem_cons_of_mem _ hb)) (k + 1)]
      simp only [List.countP_cons, hv, if_pos, Gdelt.RunState.mk.injEq,
        true_and, and_true]
      omega

theorem Yahoo.ingestLoop_seen_mono (url q fa : String)
    (enrichF : Yahoo.NewsItem → Except PyExc Yahoo.NewsItem)
    (items : List Yahoo.NewsItem) (st : Yahoo.RunState) (d : Yahoo.RunState)
    (h : Yahoo.ingestLoop url q fa enrichF items st = .ok d)
    (x : String) (hx : x ∈ st.seen) : x ∈ d.seen := by
  induction items generalizing st with
  | nil =>
    simp only [Yahoo.ingestLoop] at h
    cases h
    exact hx
  | cons item rest ih =>
    simp only [Yahoo.ingestLoop] at h
    split_ifs at h with hc
    · exact ih _ h hx
    · rcases he : enrichF item with e | item2
      · rw [he] at h
        cases h
      · rw [he] at h
        exact ih _ h (List.mem_cons_of_mem _ hx)

theorem Yahoo.ingestLoop_covers (url q fa : String)
    (enrichF : Yahoo.NewsItem → Except PyExc Yahoo.NewsItem)
    (items : List Yahoo.NewsItem) (st : Yahoo.RunState) (d : Yahoo.RunState)
    (h : Yahoo.ingestLoop url q fa enrichF items st = .ok d) :
    ∀ item ∈ items, Yahoo.itemId url item ∈ d.seen := by
  induction items generalizing st with
  | nil => simp
  | cons b rest ih =>
    intro item hmem
    rcases List.mem_cons.mp hmem with rfl | h2
    · simp only [Yahoo.ingestLoop] at h
      split_ifs at h with hc
      · exact Yahoo.ingestLoop_seen_mono url q fa enrichF rest _ d h _
          (List.elem_iff.mp hc)
      · rcases he : enrichF item with e | item2
        · rw [he] at h
          cases h
        · rw [he] at h
          exact Yahoo.ingestLoop_seen_mono url q fa enrichF rest _ d h _
            (List.mem_cons_self _ _)
    · simp only [Yahoo.ingestLoop] at h
      split_ifs at h with hc
      · exact ih _ h item h2
      · rcases he : enrichF b with e | item2
        · rw [he] at h
          cases h
        · rw [he] at h
          exact ih _ h item h2

theorem Yahoo.ingestLoop_counts (url q fa : String)
    (enrichF : Yahoo.NewsItem → Except PyExc Yahoo.NewsItem)
    (items : List Yahoo.NewsItem) (st : Yahoo.RunState) (d : Yahoo.RunState)
    (h : Yahoo.ingestLoop url q fa enrichF items st = .ok d) :
    d.newCount + d.skipped = st.newCount + st.skipped + items.length := by
  induction items generalizing st with
  | nil =>
    simp only [Yahoo.ingestLoop] at h
    cases h
    simp
  | cons item rest ih =>
    simp only [Yahoo.ingestLoop] at h
    split_ifs at h with hc
    · have := ih _ h
      simp only [List.length_cons] at *
      omega
    · rcases he : enrichF item with e | item2
      · rw [he] at h
        cases h
      · rw [he] at h
        have := ih _ h
        simp only [List.length_cons] at *
        omega

theorem Yahoo.ingestLoop_rerun (url q fa : String)
    (enrichF : Yahoo.NewsItem → Except PyExc Yahoo.NewsItem)
    (items : List Yahoo.NewsItem) (big : List String)
    (hcov : ∀ item ∈ items, Yahoo.itemId url item ∈ big)
    (n k : Nat) (r : List (List String)) :
    Yahoo.ingestLoop url q fa enrichF items ⟨big, n, k, r⟩ =
      .ok ⟨big, n, k + items.length, r⟩ := by
  induction items generalizing k with
  | nil => simp [Yahoo.ingestLoop]
  | cons item rest ih =>
    simp only [Yahoo.ingestLoop]
    have hc : List.contains big
        (Yahoo.compute_id (Yahoo.normalize_link item.link url)) = true :=
      List.elem_iff.mpr (hcov item (List.mem_cons_self _ _))
    rw [if_pos hc]
    rw [ih (fun b hb => hcov b (List.mem_cons_of_mem _ hb)) (k + 1)]
    simp only [Except.ok.injEq, Yahoo.RunState.mk.injEq, List.length_cons,
      true_and, and_true]
    omega

/-- C4 (amended): re-running ingestion on an unchanged payload with the
seen-set persisted yields zero new items, an empty row batch and an
unchanged store, and the second run's skipped count equals the first
run's new count plus the first run's skipped count (so it equals the
first run's new count exactly when the first run skipped nothing).  This
holds for both feed variants. -/
theorem C4_amended :
    (∀ (feed : Gdelt.FeedConfig) (payload : Option Gdelt.Payload) (seen0 : List String)
        (fa : String) (st1 : Gdelt.RunState),
      Gdelt.ingest_feed feed (.ok payload) seen0 fa = .ok st1 →
      Gdelt.ingest_feed feed (.ok payload) st1.seen fa =
        .ok ⟨st1.seen, 0, st1.newCount + st1.skipped, []⟩) ∧
    (∀ (feed : Yahoo.FeedConfig) (primary fallback : Except PyExc (List Yahoo.NewsItem))
        (m : Nat) (enrichF : Yahoo.NewsItem → Except PyExc Yahoo.NewsItem)
        (seen0 : List String) (fa : String) (w : Bool) (st1 : Yahoo.RunState),
      Yahoo.ingest_feed feed primary fallback m enrichF seen0 fa = (w, .ok st1) →
      Yahoo.ingest_feed feed primary fallback m enrichF st1.seen fa =
        (w, .ok ⟨st1.seen, 0, st1.newCount + st1.skipped, []⟩)) := by
  constructor
  · intro feed payload seen0 fa st1 h
    cases payload with
    | none =>
      simp only [Gdelt.ingest_feed] at h ⊢
      cases h
      rfl
    | some p =>
      simp only [Gdelt.ingest_feed] at h ⊢
      rw [Except.ok.injEq] at h
      have hcounts : st1.newCount + st1.skipped =
          0 + 0 + (Gdelt.parse_articles (some p)).countP Gdelt.validArticle := by
        rw [← h]
        exact Gdelt.foldl_counts feed.query fa (Gdelt.parse_articles (some p))
          ⟨seen0, 0, 0, []⟩
      have hcov : ∀ a ∈ Gdelt.parse_articles (some p), Gdelt.validArticle a = true →
          Gdelt.articleId a ∈ st1.seen := by
        rw [← h]
        exact Gdelt.foldl_covers feed.query fa _ ⟨seen0, 0, 0, []⟩
      rw [Gdelt.foldl_rerun_skip feed.query fa _ _ hcov 0 0 []]
      rw [Except.ok.injEq]
      simp only [Gdelt.RunState.mk.injEq, true_and, and_true]
      omega
  · intro feed primary fallback m enrichF seen0 fa w st1 h
    simp only [Yahoo.ingest_feed] at h ⊢
    rcases hsel : Yahoo.select_items feed primary fallback with e | items0
    · rw [hsel] at h
      simp only [Prod.mk.injEq] at h
      cases h.2
    · rw [hsel] at h
      simp only [Prod.mk.injEq] at h ⊢
      obtain ⟨hw, hloop⟩ := h
      refine ⟨hw, ?_⟩
      have hcounts : st1.newCount + st1.skipped =
          0 + 0 + (Yahoo.capItems items0 m).1.length :=
        Yahoo.ingestLoop_counts _ _ _ _ _ _ _ hloop
      have hcov := Yahoo.ingestLoop_covers _ _ _ _ _ _ _ hloop
      rw [Yahoo.ingestLoop_rerun (Yahoo.base_url feed.ticker) feed.query fa enrichF
        (Yahoo.capItems items0 m).1 st1.seen hcov 0 0 []]
      simp only [Except.ok.injEq, Yahoo.RunState.mk.injEq, true_and, and_true]
      omega

theorem C4_amended_witness :
    Gdelt.ingest_feed ⟨"f", "q"⟩ (.ok none) ([] : List String) "t" =
      .ok ⟨([] : List String), 0, 0 + 0, []⟩ :=
  C4_amended.1 ⟨"f", "q"⟩ none [] "t" ⟨[], 0, 0, []⟩ rfl

set_option maxRecDepth 1000000 in
/-- C4 (counterexample): a payload carrying the same article twice makes
the first run report 1 new and 1 skipped; the second run then skips 2,
which differs from the first run's new-item count of 1. -/
theorem C4_counterexample :
    ((Gdelt.ingest_feed ⟨"f", "q"⟩
        (.ok (some ⟨some [⟨some "http://x.com/a", some "T", none, none, none, none, none⟩,
                          ⟨some "http://x.com/a", some "T", none, none, none, none, none⟩]⟩))
        [] "t").bind fun st1 =>
      (Gdelt.ingest_feed ⟨"f", "q"⟩
        (.ok (some ⟨some [⟨some "http://x.com/a", some "T", none, none, none, none, none⟩,
                          ⟨some "http://x.com/a", some "T", none, none, none, none, none⟩]⟩))
        st1.seen "t").map fun st2 =>
        (st1.newCount, st1.skipped, st2.newCount, st2.skipped))
      = .ok (1, 1, 0, 2) := by
  decide

-- ===== C5 lemma stack (scratch development) =====

theorem Py.breakAt_append (d : Char) (b a : List Char) (hb : d ∉ b) :
    Py.breakAt d (b ++ d :: a) = some (b, a) := by
  induction b with
  | nil => simp [Py.breakAt]
  | cons c rest ih =>
    have hcd : ¬(c = d) := fun h2 => hb (by rw [h2]; exact List.mem_cons_self _ _)
    have hrest : d ∉ rest := fun hm => hb (List.mem_cons_of_mem _ hm)
    simp only [List.cons_append, Py.breakAt, List.append_eq]
    rw [if_neg hcd, ih hrest]

theorem Py.breakAt_not_mem (d : Char) (l : List Char) (h : d ∉ l) :
    Py.breakAt d l = none := by
  induction l with
  | nil => rfl
  | cons c rest ih =>
    have hcd : ¬(c = d) := fun h2 => h (by rw [h2]; exact List.mem_cons_self _ _)
    have hrest : d ∉ rest := fun hm => h (List.mem_cons_of_mem _ hm)
    simp only [Py.breakAt]
    rw [if_neg hcd, ih hrest]

theorem Py.breakAtLast_not_mem (d : Char) (l : List Char) (h : d ∉ l) :
    Py.breakAtLast d l = none := by
  induction l with
  | nil => rfl
  | cons c rest ih =>
    have hcd : ¬(c = d) := fun h2 => h (by rw [h2]; exact List.mem_cons_self _ _)
    have hrest : d ∉ rest := fun hm => h (List.mem_cons_of_mem _ hm)
    simp only [Py.breakAtLast]
    rw [ih hrest, if_neg hcd]

theorem Py.breakAtLast_append (d : Char) (b a : List Char) (ha : d ∉ a) :
    Py.breakAtLast d (b ++ d :: a) = some (b, a) := by
  induction b with
  | nil =>
    simp only [List.nil_append, Py.breakAtLast]
    rw [Py.breakAtLast_not_mem d a ha]
    simp
  | cons c rest ih =>
    simp only [List.cons_append, Py.breakAtLast, List.append_eq]
    rw [ih]

theorem Py.breakAtLast_none (d : Char) (l : List Char)
    (h : Py.breakAtLast d l = none) : d ∉ l := by
  induction l with
  | nil => simp
  | cons c rest ih =>
    simp only [Py.breakAtLast] at h
    rcases hrec : Py.breakAtLast d rest with - | p
    · rw [hrec] at h
      by_cases hc : c = d
      · rw [if_pos hc] at h
        exact absurd h (by simp)
      · rw [if_neg hc] at h
        simp only [List.mem_cons, not_or]
        exact ⟨fun h2 => hc h2.symm, ih hrec⟩
    · rw [hrec] at h
      exact absurd h (by simp)

theorem Py.breakAtLast_some (d : Char) (l b a : List Char)
    (h : Py.breakAtLast d l = some (b, a)) : l = b ++ d :: a ∧ d ∉ a := by
  induction l generalizing b with
  | nil => simp [Py.breakAtLast] at h
  | cons c rest ih =>
    simp only [Py.breakAtLast] at h
    rcases hrec : Py.breakAtLast d rest with - | ⟨b2, a2⟩
    · rw [hrec] at h
      by_cases hc : c = d
      · rw [if_pos hc] at h
        cases h
        subst hc
        exact ⟨rfl, Py.breakAtLast_none _ _ hrec⟩
      · rw [if_neg hc] at h
        exact absurd h (by simp)
    · rw [hrec] at h
      cases h
      obtain ⟨h1, h2⟩ := ih b2 hrec
      exact ⟨by simp [h1], h2⟩

theorem Py.contains_false_iff (l : List Char) (d : Char) :
    l.contains d = false ↔ d ∉ l := by
  rw [← Bool.not_eq_true]
  exact not_congr List.elem_iff

theorem Urllib.splitparams_no_slash_same (b b2 : List Char)
    (hb2 : ';' ∉ b2) (hslash : '/' ∉ b2) :
    Urllib.splitparams (b ++ '/' :: b2) = (b ++ '/' :: b2, []) ∨
    (b ++ '/' :: b2).contains ';' = false := by
  by_cases hc : (b ++ '/' :: b2).contains ';' = true
  · left
    unfold Urllib.splitparams
    rw [if_pos (by rw [List.elem_iff]; exact List.mem_append_right _ (List.mem_cons_self _ _))]
    rw [Py.breakAtLast_append '/' b b2 hslash]
    simp only [Py.breakAt_not_mem ';' b2 hb2]
  · right
    exact Bool.not_eq_true _ |>.mp hc

theorem Urllib.splitParamsIfNeeded_stable (scheme p0 : List Char) :
    Urllib.splitParamsIfNeeded scheme
        (Urllib.joinParams (Urllib.splitParamsIfNeeded scheme p0).1
          (Urllib.splitParamsIfNeeded scheme p0).2) =
      Urllib.splitParamsIfNeeded scheme p0 := by
  by_cases hg : (Urllib.uses_params.contains scheme && p0.contains ';') = true
  · by_cases hsl : p0.contains '/' = true
    · rcases hbl : Py.breakAtLast '/' p0 with - | ⟨b, aa⟩
      · exact absurd (List.elem_iff.mp hsl) (Py.breakAtLast_none _ _ hbl)
      · obtain ⟨hp0, hnaa⟩ := Py.breakAtLast_some '/' p0 b aa hbl
        rcases hba : Py.breakAt ';' aa with - | ⟨b2, a2⟩
        · have hval : Urllib.splitParamsIfNeeded scheme p0 = (p0, []) := by
            unfold Urllib.splitParamsIfNeeded Urllib.splitparams
            rw [if_pos hg, if_pos hsl, hbl]
            simp only [hba]
          rw [hval]
          simp only [Urllib.joinParams, List.isEmpty_nil, Bool.not_true,
            Bool.false_eq_true, if_false]
          exact hval
        · obtain ⟨haa, hnb2⟩ := Py.breakAt_some ';' aa b2 a2 hba
          have hval : Urllib.splitParamsIfNeeded scheme p0 = (b ++ '/' :: b2, a2) := by
            unfold Urllib.splitParamsIfNeeded Urllib.splitparams
            rw [if_pos hg, if_pos hsl, hbl]
            simp only [hba]
          rw [hval]
          have hsl2 : '/' ∉ b2 := fun hm => hnaa (by rw [haa]; exact List.mem_append_left _ hm)
          cases a2 with
          | nil =>
            simp only [Urllib.joinParams, List.isEmpty_nil, Bool.not_true,
              Bool.false_eq_true, if_false]
            rcases Urllib.splitparams_no_slash_same b b2 hnb2 hsl2 with hcase | hcase
            · unfold Urllib.splitParamsIfNeeded
              by_cases hg2 : (Urllib.uses_params.contains scheme &&
                  (b ++ '/' :: b2).contains ';') = true
              · rw [if_pos hg2, hcase]
              · rw [if_neg hg2]
            · unfold Urllib.splitParamsIfNeeded
              rw [if_neg (by rw [hcase, Bool.and_false]; simp)]
          | cons x xs =>
            have hjoin : Urllib.joinParams (b ++ '/' :: b2) (x :: xs) = p0 := by
              simp only [Urllib.joinParams, List.isEmpty_cons, Bool.not_false, if_true]
              rw [hp0, haa]
              simp
            rw [hjoin]
            exact hval
    · rcases hba : Py.breakAt ';' p0 with - | ⟨b, a⟩
      · have hnotin := Py.breakAt_none ';' p0 hba
        have hg2 := hg
        rw [Bool.and_eq_true] at hg2
        exact absurd (List.elem_iff.mp hg2.2) hnotin
      · obtain ⟨hp0, hnb⟩ := Py.breakAt_some ';' p0 b a hba
        have hval : Urllib.splitParamsIfNeeded scheme p0 = (b, a) := by
          unfold Urllib.splitParamsIfNeeded Urllib.splitparams
          rw [if_pos hg, if_neg hsl]
          simp only [hba]
        rw [hval]
        cases a with
        | nil =>
          simp only [Urllib.joinParams, List.isEmpty_nil, Bool.not_true,
            Bool.false_eq_true, if_false]
          unfold Urllib.splitParamsIfNeeded
          rw [if_neg (by rw [(Py.contains_false_iff b ';').mpr hnb, Bool.and_false]; simp)]
        | cons x xs =>
          have hjoin : Urllib.joinParams b (x :: xs) = p0 := by
            simp only [Urllib.joinParams, List.isEmpty_cons, Bool.not_false, if_true]
            rw [hp0]
          rw [hjoin]
          exact hval
  · have hval : Urllib.splitParamsIfNeeded scheme p0 = (p0, []) := by
      unfold Urllib.splitParamsIfNeeded
      rw [if_neg hg]
    rw [hval]
    simp only [Urllib.joinParams, List.isEmpty_nil, Bool.not_true,
      Bool.false_eq_true, if_false]
    exact hval

theorem takeWhile_append_all (p : Char → Bool) (l1 l2 : List Char)
    (h1 : l1.all p = true) (h2 : l2 = [] ∨ p (l2.headD ' ') = false) :
    (l1 ++ l2).takeWhile p = l1 ∧ (l1 ++ l2).dropWhile p = l2 := by
  induction l1 with
  | nil =>
    simp only [List.nil_append]
    rcases h2 with rfl | h2
    · simp
    · cases l2 with
      | nil => simp
      | cons c rest =>
        simp only [List.headD_cons] at h2
        simp [List.takeWhile, List.dropWhile, h2]
  | cons c rest ih =>
    simp only [List.all_cons, Bool.and_eq_true] at h1
    obtain ⟨hc, hrest⟩ := h1
    obtain ⟨ht, hd⟩ := ih hrest
    simp [List.takeWhile_cons, List.dropWhile_cons, hc, ht, hd]

theorem Urllib.schemeChar_all_not_mem (s : List Char) (d : Char)
    (hall : s.all Urllib.schemeChar = true) (hd : Urllib.schemeChar d = false) :
    d ∉ s := by
  intro hm
  rw [List.all_eq_true] at hall
  rw [hall d hm] at hd
  cases hd

theorem Urllib.splitScheme_eq (l pre post : List Char)
    (hb : Py.breakAt ':' l = some (pre, post)) :
    Urllib.splitScheme l =
      if (!pre.isEmpty && Urllib.asciiAlpha (pre.headD ' ') &&
          pre.all Urllib.schemeChar) = true then
        (Py.pyLower pre, post)
      else ([], l) := by
  unfold Urllib.splitScheme
  rw [hb]

theorem Urllib.splitScheme_slash (l : List Char) (h : l.headD ' ' = '/') :
    Urllib.splitScheme l = ([], l) := by
  rcases hb : Py.breakAt ':' l with - | ⟨pre, post⟩
  · unfold Urllib.splitScheme
    rw [hb]
  · rw [Urllib.splitScheme_eq l pre post hb]
    obtain ⟨hl, -⟩ := Py.breakAt_some ':' l pre post hb
    cases pre with
    | nil => simp
    | cons c rest =>
      have hc : c = '/' := by
        rw [hl] at h
        simpa using h
      subst hc
      rw [if_neg (by simp [Urllib.asciiAlpha])]

theorem Urllib.splitScheme_of_scheme (s rest : List Char) (hs : Urllib.SchemeOK s) :
    Urllib.splitScheme (s ++ ':' :: rest) = (s, rest) := by
  obtain ⟨hne, halpha, hall, hlower⟩ := hs
  rw [Urllib.splitScheme_eq (s ++ ':' :: rest) s rest
    (Py.breakAt_append ':' s rest
      (Urllib.schemeChar_all_not_mem s ':' hall (by decide)))]
  rw [List.headD_eq_head?_getD] at halpha
  rw [if_pos (by simp [List.isEmpty_iff, hne, halpha, hall])]
  rw [hlower]

theorem Urllib.sanitizeUrl_eq_self (l : List Char)
    (hhead : l = [] ∨ Urllib.isC0OrSpace (l.headD ' ') = false)
    (hclean : l.all (fun c => !Urllib.isUnsafeByte c) = true) :
    Urllib.sanitizeUrl l = l := by
  unfold Urllib.sanitizeUrl
  have hdrop : l.dropWhile Urllib.isC0OrSpace = l := by
    rcases hhead with rfl | hh
    · rfl
    · cases l with
      | nil => rfl
      | cons c rest =>
        simp only [List.headD_cons] at hh
        simp [List.dropWhile, hh]
  rw [hdrop]
  rw [List.filter_eq_self]
  intro a ha
  rw [List.all_eq_true] at hclean
  exact hclean a ha

theorem Urllib.asciiAlpha_not_c0 (c : Char) (h : Urllib.asciiAlpha c = true) :
    Urllib.isC0OrSpace c = false := by
  unfold Urllib.asciiAlpha at h
  rw [Bool.or_eq_true] at h
  unfold Urllib.isC0OrSpace
  rw [decide_eq_false_iff_not]
  rcases h with h | h
  · simp only [Bool.and_eq_true, decide_eq_true_eq] at h
    have h2 : ('a' : Char).val.toNat ≤ c.val.toNat := h.1
    have h3 : ('a' : Char).val.toNat = 97 := rfl
    change ¬(c.val.toNat ≤ 32)
    omega
  · simp only [Bool.and_eq_true, decide_eq_true_eq] at h
    have h2 : ('A' : Char).val.toNat ≤ c.val.toNat := h.1
    have h3 : ('A' : Char).val.toNat = 65 := rfl
    change ¬(c.val.toNat ≤ 32)
    omega

theorem Urllib.urlsplit_recon (s n url1 ds : List Char)
    (hs : s = [] ∨ Urllib.SchemeOK s)
    (hds : s ≠ [] ∨ Urllib.sanitizeScheme ds = [])
    (hnall : n.all (fun c => !Urllib.netlocDelim c) = true)
    (hu1 : url1 = [] ∨ url1.headD ' ' = '/')
    (hq1 : '#' ∉ url1) (hq2 : '?' ∉ url1)
    (hcls : s.all (fun c => !Urllib.isUnsafeByte c) = true)
    (hcln : n.all (fun c => !Urllib.isUnsafeByte c) = true)
    (hclu : url1.all (fun c => !Urllib.isUnsafeByte c) = true) :
    Urllib.urlsplit ((if s.isEmpty = true then [] else s ++ [':']) ++
        '/' :: '/' :: (n ++ url1)) ds =
      ⟨s, n, url1, [], []⟩ := by
  have hnetrest : (n ++ url1).takeWhile (fun c => !Urllib.netlocDelim c) = n ∧
      (n ++ url1).dropWhile (fun c => !Urllib.netlocDelim c) = url1 := by
    apply takeWhile_append_all _ _ _ hnall
    rcases hu1 with rfl | hh
    · exact Or.inl rfl
    · cases url1 with
      | nil => exact Or.inl rfl
      | cons c rest =>
        right
        simp only [List.headD_cons] at hh
        subst hh
        show (!Urllib.netlocDelim '/') = false
        decide
  have hfrag : Py.breakAt '#' url1 = none := Py.breakAt_not_mem _ _ hq1
  have hqm : Py.breakAt '?' url1 = none := Py.breakAt_not_mem _ _ hq2
  have hcltail : ('/' :: '/' :: (n ++ url1)).all
      (fun c => !Urllib.isUnsafeByte c) = true := by
    simp only [List.all_cons, List.all_append, hcln, hclu, Bool.and_true, Bool.and_self]
    decide
  rcases hs with rfl | hsok
  · have hds2 : Urllib.sanitizeScheme ds = [] := hds.resolve_left (fun h => h rfl)
    rw [show ((if ([] : List Char).isEmpty = true then ([] : List Char)
        else [] ++ [':']) : List Char) = [] from rfl, List.nil_append]
    simp only [Urllib.urlsplit]
    rw [Urllib.sanitizeUrl_eq_self _
      (Or.inr (by simp only [List.headD_cons]; decide)) hcltail]
    rw [Urllib.splitScheme_slash _ (by simp only [List.headD_cons])]
    rw [hds2]
    simp only [List.isEmpty_nil, eq_self_iff_true, if_true]
    rw [if_pos (show ('/' :: '/' :: (n ++ url1)).take 2 = ['/', '/'] from rfl)]
    unfold Urllib.splitNetloc
    simp only [List.isEmpty_nil, List.drop_succ_cons, List.drop_zero,
      hnetrest.1, hnetrest.2, hfrag, hqm, if_true]
  · have hne : s.isEmpty = false := by
      cases s with
      | nil => exact absurd rfl hsok.1
      | cons c r => rfl
    rw [if_neg (by rw [hne]; decide)]
    have hassoc : (s ++ [':']) ++ '/' :: '/' :: (n ++ url1) =
        s ++ ':' :: '/' :: '/' :: (n ++ url1) := by simp
    rw [hassoc]
    simp only [Urllib.urlsplit]
    rw [Urllib.sanitizeUrl_eq_self _ ?hhead ?hclall]
    case hhead =>
      right
      cases s with
      | nil => exact absurd rfl hsok.1
      | cons c r =>
        simp only [List.cons_append, List.headD_cons]
        exact Urllib.asciiAlpha_not_c0 c (by simpa using hsok.2.1)
    case hclall =>
      simp only [List.all_append, List.all_cons, hcls, hcltail, Bool.and_true,
        Bool.true_and]
      decide
    rw [Urllib.splitScheme_of_scheme s ('/' :: '/' :: (n ++ url1)) hsok]
    simp only [hne, Bool.false_eq_true, if_false]
    rw [if_pos (show ('/' :: '/' :: (n ++ url1)).take 2 = ['/', '/'] from rfl)]
    unfold Urllib.splitNetloc
    simp only [List.drop_succ_cons, List.drop_zero, hnetrest.1, hnetrest.2, hfrag, hqm]

theorem Urllib.urlunparse_shape (s n p par : List Char) (hn : n ≠ []) :
    Urllib.urlunparse ⟨s, n, p, par, [], []⟩ =
      (if s.isEmpty = true then ([] : List Char) else s ++ [':']) ++
        '/' :: '/' :: (n ++
          (if (!(Urllib.joinParams p par).isEmpty &&
              !((Urllib.joinParams p par).headD ' ' = '/')) = true then
            '/' :: Urllib.joinParams p par
          else Urllib.joinParams p par)) := by
  have hne : n.isEmpty = false := by
    cases n with
    | nil => exact absurd rfl hn
    | cons a b => rfl
  unfold Urllib.urlunparse Urllib.urlunsplit
  simp only [hne, Bool.not_false, Bool.true_or, if_true, List.isEmpty_nil,
    Bool.not_true, Bool.false_eq_true, if_false, ite_true]
  simp only [decide_not]
  by_cases hse : s.isEmpty = true
  · simp only [hse, Bool.not_true, Bool.false_eq_true, if_false, if_true,
      eq_self_iff_true, List.nil_append]
  · simp only [hse, Bool.not_false, if_true, Bool.false_eq_true, if_false,
      List.append_assoc, List.singleton_append]

theorem Char_toLower_cases (c : Char) :
    (65 ≤ c.toNat ∧ c.toNat ≤ 90 ∧ (Char.toLower c).toNat = c.toNat + 32) ∨
      Char.toLower c = c := by
  unfold Char.toLower
  dsimp only
  split
  · rename_i h
    left
    refine ⟨h.1, h.2, ?_⟩
    have hv : (c.toNat + 32).isValidChar := by
      left
      have := c.val.toNat_lt
      omega
    unfold Char.ofNat
    rw [dif_pos hv]
    unfold Char.ofNatAux Char.toNat
    rfl
  · right
    rfl

theorem Char_toLower_idem (c : Char) :
    Char.toLower (Char.toLower c) = Char.toLower c := by
  rcases Char_toLower_cases c with ⟨h1, h2, h3⟩ | heq
  · rcases Char_toLower_cases (Char.toLower c) with ⟨g1, g2, g3⟩ | geq
    · rw [h3] at g2
      omega
    · exact geq
  · rw [heq, heq]

theorem Urllib.schemeChar_toLower (c : Char) (h : Urllib.schemeChar c = true) :
    Urllib.schemeChar (Char.toLower c) = true := by
  rcases Char_toLower_cases c with ⟨h1, h2, h3⟩ | heq
  · unfold Urllib.schemeChar
    rw [Bool.or_eq_true, Bool.or_eq_true, Bool.or_eq_true, Bool.or_eq_true,
      Bool.or_eq_true]
    refine Or.inl (Or.inl (Or.inl (Or.inl (Or.inl ?_))))
    rw [Bool.and_eq_true, decide_eq_true_eq, decide_eq_true_eq]
    constructor
    · show ('a' : Char).val.toNat ≤ (Char.toLower c).val.toNat
      have hl : (Char.toLower c).val.toNat = c.toNat + 32 := h3
      rw [hl]
      show 97 ≤ c.toNat + 32
      omega
    · show (Char.toLower c).val.toNat ≤ ('z' : Char).val.toNat
      have hl : (Char.toLower c).val.toNat = c.toNat + 32 := h3
      rw [hl]
      show c.toNat + 32 ≤ 122
      omega
  · rw [heq]
    exact h

theorem Urllib.asciiAlpha_toLower (c : Char) (h : Urllib.asciiAlpha c = true) :
    Urllib.asciiAlpha (Char.toLower c) = true := by
  rcases Char_toLower_cases c with ⟨h1, h2, h3⟩ | heq
  · unfold Urllib.asciiAlpha
    rw [Bool.or_eq_true]
    refine Or.inl ?_
    rw [Bool.and_eq_true, decide_eq_true_eq, decide_eq_true_eq]
    constructor
    · show ('a' : Char).val.toNat ≤ (Char.toLower c).val.toNat
      have hl : (Char.toLower c).val.toNat = c.toNat + 32 := h3
      rw [hl]
      show 97 ≤ c.toNat + 32
      omega
    · show (Char.toLower c).val.toNat ≤ ('z' : Char).val.toNat
      have hl : (Char.toLower c).val.toNat = c.toNat + 32 := h3
      rw [hl]
      show c.toNat + 32 ≤ 122
      omega
  · rw [heq]
    exact h

theorem Urllib.schemeChar_not_unsafe (c : Char) (h : Urllib.schemeChar c = true) :
    Urllib.isUnsafeByte c = false := by
  cases hq : Urllib.isUnsafeByte c
  · rfl
  · unfold Urllib.isUnsafeByte at hq
    rw [Bool.or_eq_true, Bool.or_eq_true] at hq
    rcases hq with (hq | hq) | hq <;> rw [decide_eq_true_eq] at hq <;> subst hq <;>
      exact absurd h (by decide)

theorem Py.pyLower_schemeOK (s : List Char) (hne : s ≠ [])
    (halpha : Urllib.asciiAlpha (s.headD ' ') = true)
    (hall : s.all Urllib.schemeChar = true) :
    Urllib.SchemeOK (Py.pyLower s) := by
  cases s with
  | nil => exact absurd rfl hne
  | cons c rest =>
    refine ⟨by simp [Py.pyLower], ?_, ?_, ?_⟩
    · simp only [Py.pyLower, List.map_cons, List.headD_cons]
      simp only [List.headD_cons] at halpha
      exact Urllib.asciiAlpha_toLower c halpha
    · simp only [Py.pyLower, List.all_map]
      rw [List.all_eq_true] at hall ⊢
      intro x hx
      exact Urllib.schemeChar_toLower x (hall x hx)
    · simp only [Py.pyLower, List.map_map]
      apply List.map_congr_left
      intro x hx
      exact Char_toLower_idem x

theorem all_of_mem_subset {p : Char → Bool} {l1 l2 : List Char}
    (hsub : ∀ c, c ∈ l1 → c ∈ l2) (h : l2.all p = true) : l1.all p = true := by
  rw [List.all_eq_true] at h ⊢
  intro c hc
  exact h c (hsub c hc)

theorem all_imp {p q : Char → Bool} (l : List Char)
    (himp : ∀ c, p c = true → q c = true) (h : l.all p = true) : l.all q = true := by
  rw [List.all_eq_true] at h ⊢
  intro c hc
  exact himp c (h c hc)

theorem eq_nil_of_subset_nil {l : List Char}
    (hsub : ∀ c, c ∈ l → c ∈ ([] : List Char)) : l = [] := by
  cases l with
  | nil => rfl
  | cons c r => exact absurd (hsub c (List.mem_cons_self c r)) (List.not_mem_nil c)

theorem dropWhile_nil_or_head (p : Char → Bool) (l : List Char) :
    l.dropWhile p = [] ∨ p ((l.dropWhile p).headD ' ') = false := by
  induction l with
  | nil => exact Or.inl rfl
  | cons c rest ih =>
    rw [List.dropWhile_cons]
    by_cases hc : p c = true
    · rw [if_pos hc]
      exact ih
    · rw [if_neg hc]
      right
      simp only [List.headD_cons]
      exact Bool.not_eq_true _ |>.mp hc

theorem headD_chain (x y z : List Char) (hsub : ∀ c, c ∈ x → c ∈ y)
    (h1 : x = [] ∨ x.headD ' ' = y.headD ' ')
    (h2 : y = [] ∨ y.headD ' ' = z.headD ' ') :
    x = [] ∨ x.headD ' ' = z.headD ' ' := by
  rcases h1 with rfl | h1
  · exact Or.inl rfl
  · rcases h2 with rfl | h2
    · exact Or.inl (eq_nil_of_subset_nil hsub)
    · exact Or.inr (h1.trans h2)

theorem Py.breakAt_head (d : Char) (l b a : List Char)
    (h : Py.breakAt d l = some (b, a)) : b = [] ∨ b.headD ' ' = l.headD ' ' := by
  cases l with
  | nil => simp [Py.breakAt] at h
  | cons c rest =>
    simp only [Py.breakAt] at h
    by_cases hc : c = d
    · rw [if_pos hc] at h
      cases h
      exact Or.inl rfl
    · rw [if_neg hc] at h
      rcases hrec : Py.breakAt d rest with - | ⟨b2, a2⟩ <;> rw [hrec] at h
      · cases h
      · cases h
        exact Or.inr rfl

theorem Urllib.path_head_of_delim (Y p : List Char)
    (hsub : ∀ c, c ∈ p → c ∈ Y)
    (hhead : p = [] ∨ p.headD ' ' = Y.headD ' ')
    (hno1 : '#' ∉ p) (hno2 : '?' ∉ p)
    (hd : Y = [] ∨ Urllib.netlocDelim (Y.headD ' ') = true) :
    p = [] ∨ p.headD ' ' = '/' := by
  rcases hhead with rfl | hh
  · exact Or.inl rfl
  · rcases hd with rfl | hd
    · exact Or.inl (eq_nil_of_subset_nil hsub)
    · unfold Urllib.netlocDelim at hd
      rw [Bool.or_eq_true, Bool.or_eq_true] at hd
      cases p with
      | nil => exact Or.inl rfl
      | cons c rest =>
        simp only [List.headD_cons] at hh
        rcases hd with (hd | hd) | hd <;> rw [decide_eq_true_eq] at hd
        · right
          simp only [List.headD_cons]
          rw [hh, hd]
        · exact absurd (show '?' ∈ c :: rest by
            rw [show ('?' : Char) = c from (hh.trans hd).symm]
            exact List.mem_cons_self _ _) hno2
        · exact absurd (show '#' ∈ c :: rest by
            rw [show ('#' : Char) = c from (hh.trans hd).symm]
            exact List.mem_cons_self _ _) hno1

theorem Urllib.splitTail_facts (U : List Char)
    (hUc : U.all (fun c => !Urllib.isUnsafeByte c) = true) :
    ∃ n Y,
      (if U.take 2 = ['/', '/'] then Urllib.splitNetloc (U.drop 2) else ([], U)) = (n, Y) ∧
      n.all (fun c => !Urllib.netlocDelim c) = true ∧
      n.all (fun c => !Urllib.isUnsafeByte c) = true ∧
      (∀ c, c ∈ Y → c ∈ U) ∧
      (n ≠ [] → (Y = [] ∨ Urllib.netlocDelim (Y.headD ' ') = true)) ∧
      Y.all (fun c => !Urllib.isUnsafeByte c) = true := by
  by_cases htake : U.take 2 = ['/', '/']
  · rw [if_pos htake]
    unfold Urllib.splitNetloc
    refine ⟨_, _, rfl, List.all_takeWhile, ?_, ?_, ?_, ?_⟩
    · exact all_of_mem_subset
        (fun c hc => List.drop_subset _ _ ((List.takeWhile_sublist _).subset hc)) hUc
    · exact fun c hc => List.drop_subset _ _ ((List.dropWhile_sublist _).subset hc)
    · intro hne
      rcases dropWhile_nil_or_head (fun c => !Urllib.netlocDelim c) (U.drop 2) with h | h
      · exact Or.inl h
      · right
        cases hnd : Urllib.netlocDelim
            ((List.dropWhile (fun c => !Urllib.netlocDelim c) (U.drop 2)).headD ' ')
        · rw [hnd] at h
          cases h
        · rfl
    · exact all_of_mem_subset
        (fun c hc => List.drop_subset _ _ ((List.dropWhile_sublist _).subset hc)) hUc
  · rw [if_neg htake]
    exact ⟨[], U, rfl, rfl, rfl, fun c hc => hc, fun h => absurd rfl h, hUc⟩

theorem Urllib.splitScheme_cases (u : List Char) :
    Urllib.splitScheme u = ([], u) ∨
      ∃ pre post, u = pre ++ ':' :: post ∧
        Urllib.splitScheme u = (Py.pyLower pre, post) ∧ pre ≠ [] ∧
        Urllib.asciiAlpha (pre.headD ' ') = true ∧
        pre.all Urllib.schemeChar = true := by
  rcases hb : Py.breakAt ':' u with - | ⟨pre, post⟩
  · left
    unfold Urllib.splitScheme
    rw [hb]
  · rw [Urllib.splitScheme_eq u pre post hb]
    by_cases hcond : (!pre.isEmpty && Urllib.asciiAlpha (pre.headD ' ') &&
        pre.all Urllib.schemeChar) = true
    · right
      obtain ⟨hu, -⟩ := Py.breakAt_some ':' u pre post hb
      rw [if_pos hcond]
      rw [Bool.and_eq_true, Bool.and_eq_true] at hcond
      refine ⟨pre, post, hu, rfl, ?_, hcond.1.2, hcond.2⟩
      intro hnil
      subst hnil
      cases hcond.1.1
    · left
      rw [if_neg hcond]

theorem Urllib.urlsplit_inv (u ds : List Char)
    (hds : Urllib.sanitizeScheme ds = []) :
    ((Urllib.urlsplit u ds).scheme = [] ∨ Urllib.SchemeOK (Urllib.urlsplit u ds).scheme) ∧
    (Urllib.urlsplit u ds).netloc.all (fun c => !Urllib.netlocDelim c) = true ∧
    ((Urllib.urlsplit u ds).netloc ≠ [] →
      ((Urllib.urlsplit u ds).path = [] ∨ (Urllib.urlsplit u ds).path.headD ' ' = '/')) ∧
    '#' ∉ (Urllib.urlsplit u ds).path ∧ '?' ∉ (Urllib.urlsplit u ds).path ∧
    (Urllib.urlsplit u ds).scheme.all (fun c => !Urllib.isUnsafeByte c) = true ∧
    (Urllib.urlsplit u ds).netloc.all (fun c => !Urllib.isUnsafeByte c) = true ∧
    (Urllib.urlsplit u ds).path.all (fun c => !Urllib.isUnsafeByte c) = true := by
  have hu1c : (Urllib.sanitizeUrl u).all (fun c => !Urllib.isUnsafeByte c) = true := by
    rw [List.all_eq_true]
    intro c hc
    unfold Urllib.sanitizeUrl at hc
    exact @List.of_mem_filter Char (fun c => !Urllib.isUnsafeByte c) c _ hc
  have hstep : ∃ sch U,
      (if (Urllib.splitScheme (Urllib.sanitizeUrl u)).1.isEmpty = true then
        Urllib.sanitizeScheme ds
      else (Urllib.splitScheme (Urllib.sanitizeUrl u)).1) = sch ∧
      (if (Urllib.splitScheme (Urllib.sanitizeUrl u)).1.isEmpty = true then
        Urllib.sanitizeUrl u
      else (Urllib.splitScheme (Urllib.sanitizeUrl u)).2) = U ∧
      (sch = [] ∨ Urllib.SchemeOK sch) ∧
      sch.all (fun c => !Urllib.isUnsafeByte c) = true ∧
      U.all (fun c => !Urllib.isUnsafeByte c) = true := by
    rcases Urllib.splitScheme_cases (Urllib.sanitizeUrl u) with hsc |
        ⟨pre, post, hdec, hsc, hpre, halpha, hallsc⟩
    · refine ⟨[], Urllib.sanitizeUrl u, ?_, ?_, Or.inl rfl, rfl, hu1c⟩
      · rw [hsc]
        simp [hds]
      · rw [hsc]
        simp
    · have hpe : (Py.pyLower pre).isEmpty = false := by
        cases pre with
        | nil => exact absurd rfl hpre
        | cons c r => rfl
      have hsok := Py.pyLower_schemeOK pre hpre halpha hallsc
      refine ⟨Py.pyLower pre, post, ?_, ?_, Or.inr hsok, ?_, ?_⟩
      · rw [hsc]
        simp [hpe]
      · rw [hsc]
        simp [hpe]
      · refine all_imp _ (fun c hc => ?_) hsok.2.2.1
        rw [Urllib.schemeChar_not_unsafe c hc]
        rfl
      · refine all_of_mem_subset (fun c hc => ?_) hu1c
        rw [hdec]
        exact List.mem_append_right _ (List.mem_cons_of_mem _ hc)
  obtain ⟨sch, U, hschval, hUval, hsok, hsclean, hUclean⟩ := hstep
  obtain ⟨n, Y, heq, hn1, hn2, hYsub, hYhd, hYc⟩ := Urllib.splitTail_facts U hUclean
  simp only [Urllib.urlsplit, hschval, hUval, heq]
  rcases hfr : Py.breakAt '#' Y with - | ⟨m, f⟩
  · simp only [hfr]
    have hhashY : '#' ∉ Y := Py.breakAt_none '#' Y hfr
    rcases hqr : Py.breakAt '?' Y with - | ⟨b2, a2⟩
    · simp only [hqr]
      have hqmY : '?' ∉ Y := Py.breakAt_none '?' Y hqr
      exact ⟨hsok, hn1,
        fun hne => Urllib.path_head_of_delim Y Y (fun c hc => hc) (Or.inr rfl)
          hhashY hqmY (hYhd hne),
        hhashY, hqmY, hsclean, hn2, hYc⟩
    · simp only [hqr]
      obtain ⟨hdec2, hqb2⟩ := Py.breakAt_some '?' Y b2 a2 hqr
      have hsub2 : ∀ c, c ∈ b2 → c ∈ Y := fun c hc => by
        rw [hdec2]
        exact List.mem_append_left _ hc
      have hhb2 : '#' ∉ b2 := fun hm => hhashY (hsub2 _ hm)
      exact ⟨hsok, hn1,
        fun hne => Urllib.path_head_of_delim Y b2 hsub2
          (Py.breakAt_head '?' Y b2 a2 hqr) hhb2 hqb2 (hYhd hne),
        hhb2, hqb2, hsclean, hn2, all_of_mem_subset hsub2 hYc⟩
  · simp only [hfr]
    obtain ⟨hdec1, hhm⟩ := Py.breakAt_some '#' Y m f hfr
    have hsubm : ∀ c, c ∈ m → c ∈ Y := fun c hc => by
      rw [hdec1]
      exact List.mem_append_left _ hc
    have hheadm := Py.breakAt_head '#' Y m f hfr
    rcases hqr : Py.breakAt '?' m with - | ⟨b2, a2⟩
    · simp only [hqr]
      have hqm : '?' ∉ m := Py.breakAt_none '?' m hqr
      exact ⟨hsok, hn1,
        fun hne => Urllib.path_head_of_delim Y m hsubm hheadm hhm hqm (hYhd hne),
        hhm, hqm, hsclean, hn2, all_of_mem_subset hsubm hYc⟩
    · simp only [hqr]
      obtain ⟨hdec2, hqb2⟩ := Py.breakAt_some '?' m b2 a2 hqr
      have hsub2 : ∀ c, c ∈ b2 → c ∈ m := fun c hc => by
        rw [hdec2]
        exact List.mem_append_left _ hc
      have hhb2 : '#' ∉ b2 := fun hm => hhm (hsub2 _ hm)
      exact ⟨hsok, hn1,
        fun hne => Urllib.path_head_of_delim Y b2 (fun c hc => hsubm c (hsub2 c hc))
          (headD_chain b2 m Y hsub2 (Py.breakAt_head '?' m b2 a2 hqr) hheadm)
          hhb2 hqb2 (hYhd hne),
        hhb2, hqb2, hsclean, hn2,
        all_of_mem_subset (fun c hc => hsubm c (hsub2 c hc)) hYc⟩

theorem Urllib.splitParamsIfNeeded_inv (s path : List Char) :
    (∀ c, c ∈ (Urllib.splitParamsIfNeeded s path).1 → c ∈ path) ∧
    (∀ c, c ∈ (Urllib.splitParamsIfNeeded s path).2 → c ∈ path) ∧
    '/' ∉ (Urllib.splitParamsIfNeeded s path).2 ∧
    ((Urllib.splitParamsIfNeeded s path).1 = [] ∨
      (Urllib.splitParamsIfNeeded s path).1.headD ' ' = path.headD ' ') := by
  unfold Urllib.splitParamsIfNeeded
  by_cases hg : (Urllib.uses_params.contains s && path.contains ';') = true
  · rw [if_pos hg]
    unfold Urllib.splitparams
    by_cases hsl : path.contains '/' = true
    · rw [if_pos hsl]
      rcases hbl : Py.breakAtLast '/' path with - | ⟨b, aa⟩
      · exact absurd (List.elem_iff.mp hsl) (Py.breakAtLast_none _ _ hbl)
      · simp only [hbl]
        obtain ⟨hpdec, hnaa⟩ := Py.breakAtLast_some '/' path b aa hbl
        rcases hba : Py.breakAt ';' aa with - | ⟨b2, a2⟩
        · simp only [hba]
          exact ⟨fun c hc => hc, fun c hc => absurd hc (List.not_mem_nil c),
            List.not_mem_nil '/', Or.inr trivial⟩
        · simp only [hba]
          obtain ⟨haadec, hnb2⟩ := Py.breakAt_some ';' aa b2 a2 hba
          refine ⟨?_, ?_, ?_, ?_⟩
          · intro c hc
            rw [hpdec, haadec]
            rcases List.mem_append.mp hc with h | h
            · exact List.mem_append_left _ h
            · rcases List.mem_cons.mp h with rfl | h
              · exact List.mem_append_right _ (List.mem_cons_self _ _)
              · exact List.mem_append_right _
                  (List.mem_cons_of_mem _ (List.mem_append_left _ h))
          · intro c hc
            rw [hpdec, haadec]
            exact List.mem_append_right _ (List.mem_cons_of_mem _
              (List.mem_append_right _ (List.mem_cons_of_mem _ hc)))
          · intro hm
            exact hnaa (by
              rw [haadec]
              exact List.mem_append_right _ (List.mem_cons_of_mem _ hm))
          · cases b with
            | nil =>
              right
              rw [hpdec]
              rfl
            | cons cb rb =>
              right
              rw [hpdec]
              rfl
    · rw [if_neg hsl]
      rcases hba : Py.breakAt ';' path with - | ⟨b, a⟩
      · simp only [hba]
        exact ⟨fun c hc => hc, fun c hc => absurd hc (List.not_mem_nil c),
          List.not_mem_nil '/', Or.inr trivial⟩
      · simp only [hba]
        obtain ⟨hpdec, hnb⟩ := Py.breakAt_some ';' path b a hba
        refine ⟨?_, ?_, ?_, Py.breakAt_head ';' path b a hba⟩
        · intro c hc
          rw [hpdec]
          exact List.mem_append_left _ hc
        · intro c hc
          rw [hpdec]
          exact List.mem_append_right _ (List.mem_cons_of_mem _ hc)
        · intro hm
          exact hsl (List.elem_iff.mpr (by
            rw [hpdec]
            exact List.mem_append_right _ (List.mem_cons_of_mem _ hm)))
  · rw [if_neg hg]
    exact ⟨fun c hc => hc, fun c hc => absurd hc (List.not_mem_nil c),
      List.not_mem_nil '/', Or.inr rfl⟩

theorem Urllib.parse_inv (u ds : List Char) (hds : Urllib.sanitizeScheme ds = []) :
    ((Urllib.urlparse u ds).scheme = [] ∨ Urllib.SchemeOK (Urllib.urlparse u ds).scheme) ∧
    (Urllib.urlparse u ds).netloc.all (fun c => !Urllib.netlocDelim c) = true ∧
    ((Urllib.urlparse u ds).netloc ≠ [] →
      ((Urllib.urlparse u ds).path = [] ∨ (Urllib.urlparse u ds).path.headD ' ' = '/')) ∧
    '#' ∉ (Urllib.urlparse u ds).path ∧ '?' ∉ (Urllib.urlparse u ds).path ∧
    '#' ∉ (Urllib.urlparse u ds).params ∧ '?' ∉ (Urllib.urlparse u ds).params ∧
    '/' ∉ (Urllib.urlparse u ds).params ∧
    (Urllib.urlparse u ds).scheme.all (fun c => !Urllib.isUnsafeByte c) = true ∧
    (Urllib.urlparse u ds).netloc.all (fun c => !Urllib.isUnsafeByte c) = true ∧
    (Urllib.urlparse u ds).path.all (fun c => !Urllib.isUnsafeByte c) = true ∧
    (Urllib.urlparse u ds).params.all (fun c => !Urllib.isUnsafeByte c) = true ∧
    (∃ p0, Urllib.splitParamsIfNeeded (Urllib.urlparse u ds).scheme p0 =
      ((Urllib.urlparse u ds).path, (Urllib.urlparse u ds).params)) := by
  obtain ⟨hsch, hnet, hpathhd, hh1, hh2, hscl, hncl, hpcl⟩ := Urllib.urlsplit_inv u ds hds
  obtain ⟨hsubp, hsubr, hslashr, hheadp⟩ :=
    Urllib.splitParamsIfNeeded_inv (Urllib.urlsplit u ds).scheme (Urllib.urlsplit u ds).path
  simp only [Urllib.urlparse]
  refine ⟨hsch, hnet, ?_, fun hm => hh1 (hsubp _ hm), fun hm => hh2 (hsubp _ hm),
    fun hm => hh1 (hsubr _ hm), fun hm => hh2 (hsubr _ hm), hslashr,
    hscl, hncl, all_of_mem_subset hsubp hpcl, all_of_mem_subset hsubr hpcl,
    ⟨(Urllib.urlsplit u ds).path, rfl⟩⟩
  intro hne
  rcases hheadp with h | h
  · exact Or.inl h
  · rcases hpathhd hne with hp0 | hp0
    · exact Or.inl (eq_nil_of_subset_nil (fun c hc => hp0 ▸ hsubp c hc))
    · exact Or.inr (h.trans hp0)

theorem Urllib.reparse_split (s n p par ds : List Char)
    (hs : s = [] ∨ Urllib.SchemeOK s)
    (hds : s ≠ [] ∨ Urllib.sanitizeScheme ds = [])
    (hn : n ≠ [])
    (hnall : n.all (fun c => !Urllib.netlocDelim c) = true)
    (hp : p = [] ∨ p.headD ' ' = '/')
    (hq1p : '#' ∉ p) (hq2p : '?' ∉ p)
    (hq1r : '#' ∉ par) (hq2r : '?' ∉ par) (hslr : '/' ∉ par)
    (hcls : s.all (fun c => !Urllib.isUnsafeByte c) = true)
    (hcln : n.all (fun c => !Urllib.isUnsafeByte c) = true)
    (hclp : p.all (fun c => !Urllib.isUnsafeByte c) = true)
    (hclr : par.all (fun c => !Urllib.isUnsafeByte c) = true)
    (hsplit : ∃ p0, Urllib.splitParamsIfNeeded s p0 = (p, par)) :
    ∃ p2 par2,
      Urllib.urlparse (Urllib.urlunparse ⟨s, n, p, par, [], []⟩) ds =
        ⟨s, n, p2, par2, [], []⟩ ∧
      Urllib.urlunparse ⟨s, n, p2, par2, [], []⟩ =
        Urllib.urlunparse ⟨s, n, p, par, [], []⟩ := by
  obtain ⟨p0, hp0⟩ := hsplit
  have hstable : Urllib.splitParamsIfNeeded s (Urllib.joinParams p par) = (p, par) := by
    have h := Urllib.splitParamsIfNeeded_stable s p0
    rw [hp0] at h
    exact h
  have finish : ∀ (u1 p2 par2 : List Char),
      ((if (!(Urllib.joinParams p par).isEmpty &&
          !((Urllib.joinParams p par).headD ' ' = '/')) = true then
        '/' :: Urllib.joinParams p par
      else Urllib.joinParams p par) = u1) →
      (u1 = [] ∨ u1.headD ' ' = '/') →
      '#' ∉ u1 → '?' ∉ u1 →
      u1.all (fun c => !Urllib.isUnsafeByte c) = true →
      Urllib.splitParamsIfNeeded s u1 = (p2, par2) →
      Urllib.joinParams p2 par2 = u1 →
      ∃ p2 par2,
        Urllib.urlparse (Urllib.urlunparse ⟨s, n, p, par, [], []⟩) ds =
          ⟨s, n, p2, par2, [], []⟩ ∧
        Urllib.urlunparse ⟨s, n, p2, par2, [], []⟩ =
          Urllib.urlunparse ⟨s, n, p, par, [], []⟩ := by
    intro u1 p2 par2 hu1eq hu1or h1 h2 hclu hsplitu hjoin
    refine ⟨p2, par2, ?_, ?_⟩
    · rw [Urllib.urlunparse_shape s n p par hn, hu1eq]
      simp only [Urllib.urlparse]
      rw [Urllib.urlsplit_recon s n u1 ds hs hds hnall hu1or h1 h2 hcls hcln hclu]
      simp only [hsplitu]
    · rw [Urllib.urlunparse_shape s n p2 par2 hn, Urllib.urlunparse_shape s n p par hn,
        hu1eq, hjoin]
      rcases hu1or with rfl | hh
      · simp
      · rw [hh]
        simp
  have hmemsp : ∀ c, c ∈ Urllib.joinParams p par → c = ';' ∨ c ∈ p ∨ c ∈ par := by
    intro c hc
    unfold Urllib.joinParams at hc
    cases par with
    | nil =>
      simp only [List.isEmpty_nil, Bool.not_true, Bool.false_eq_true, if_false] at hc
      exact Or.inr (Or.inl hc)
    | cons x xs =>
      simp only [List.isEmpty_cons, Bool.not_false, if_true] at hc
      rcases List.mem_append.mp hc with h | h
      · exact Or.inr (Or.inl h)
      · rcases List.mem_cons.mp h with rfl | h
        · exact Or.inl rfl
        · exact Or.inr (Or.inr h)
  rcases hp with hpnil | hphead
  · subst hpnil
    cases par with
    | nil =>
      have hsplitnil : Urllib.splitParamsIfNeeded s [] = ([], []) := by
        unfold Urllib.splitParamsIfNeeded
        rw [show (List.contains ([] : List Char) ';') = false from rfl, Bool.and_false]
        simp
      exact finish [] [] [] rfl (Or.inl rfl) (List.not_mem_nil _) (List.not_mem_nil _)
        rfl hsplitnil rfl
    | cons x xs =>
      have hq1u : '#' ∉ '/' :: ';' :: x :: xs := by
        intro hm
        simp only [List.mem_cons] at hm
        rcases hm with h | h | h
        · exact absurd h (by decide)
        · exact absurd h (by decide)
        · exact hq1r (List.mem_cons.mpr h)
      have hq2u : '?' ∉ '/' :: ';' :: x :: xs := by
        intro hm
        simp only [List.mem_cons] at hm
        rcases hm with h | h | h
        · exact absurd h (by decide)
        · exact absurd h (by decide)
        · exact hq2r (List.mem_cons.mpr h)
      have hclu : ('/' :: ';' :: x :: xs).all (fun c => !Urllib.isUnsafeByte c) = true := by
        rw [List.all_cons, List.all_cons, hclr]
        rfl
      by_cases hup : Urllib.uses_params.contains s = true
      · have hcond : (Urllib.uses_params.contains s &&
            ('/' :: ';' :: x :: xs).contains ';') = true := by
          rw [hup]
          rfl
        have hnotsl : '/' ∉ ';' :: x :: xs := by
          intro hm
          rcases List.mem_cons.mp hm with h | h
          · exact absurd h (by decide)
          · exact hslr h
        have hbl : Py.breakAtLast '/' ('/' :: ';' :: x :: xs) =
            some ([], ';' :: x :: xs) := by
          have h := Py.breakAtLast_append '/' [] (';' :: x :: xs) hnotsl
          simpa using h
        have hsplituC : Urllib.splitParamsIfNeeded s ('/' :: ';' :: x :: xs) =
            (['/'], x :: xs) := by
          unfold Urllib.splitParamsIfNeeded Urllib.splitparams
          rw [if_pos hcond]
          rw [if_pos (show (('/' :: ';' :: x :: xs).contains '/') = true from rfl)]
          simp only [hbl]
          simp only [show Py.breakAt ';' (';' :: x :: xs) = some ([], x :: xs) from rfl]
          rfl
        exact finish ('/' :: ';' :: x :: xs) ['/'] (x :: xs) rfl (Or.inr rfl)
          hq1u hq2u hclu hsplituC rfl
      · have hcond : (Urllib.uses_params.contains s &&
            ('/' :: ';' :: x :: xs).contains ';') = false := by
          cases hc : Urllib.uses_params.contains s
          · rfl
          · exact absurd hc hup
        have hsplituC : Urllib.splitParamsIfNeeded s ('/' :: ';' :: x :: xs) =
            ('/' :: ';' :: x :: xs, []) := by
          unfold Urllib.splitParamsIfNeeded
          rw [hcond]
          simp
        exact finish ('/' :: ';' :: x :: xs) ('/' :: ';' :: x :: xs) [] rfl (Or.inr rfl)
          hq1u hq2u hclu hsplituC rfl
  · have hsphead : (Urllib.joinParams p par).headD ' ' = '/' := by
      cases p with
      | nil => simp at hphead
      | cons c r =>
        simp only [List.headD_cons] at hphead
        unfold Urllib.joinParams
        cases par with
        | nil => simpa using hphead
        | cons x xs => simpa using hphead
    have hcond : (!(Urllib.joinParams p par).isEmpty &&
        !((Urllib.joinParams p par).headD ' ' = '/')) = false := by
      rw [hsphead]
      simp
    have hq1sp : '#' ∉ Urllib.joinParams p par := by
      intro hm
      rcases hmemsp _ hm with h | h | h
      · exact absurd h (by decide)
      · exact hq1p h
      · exact hq1r h
    have hq2sp : '?' ∉ Urllib.joinParams p par := by
      intro hm
      rcases hmemsp _ hm with h | h | h
      · exact absurd h (by decide)
      · exact hq2p h
      · exact hq2r h
    have hclsp : (Urllib.joinParams p par).all (fun c => !Urllib.isUnsafeByte c) = true := by
      rw [List.all_eq_true]
      intro c hc
      rcases hmemsp c hc with h | h | h
      · subst h
        rfl
      · exact List.all_eq_true.mp hclp c h
      · exact List.all_eq_true.mp hclr c h
    exact finish (Urllib.joinParams p par) p par (by rw [hcond]; simp)
      (Or.inr hsphead) hq1sp hq2sp hclsp hstable rfl

theorem Gdelt.normalize_idem_structured (l : String)
    (hnet : (Urllib.urlparse l.data []).netloc ≠ []) :
    Gdelt.normalize_link (Gdelt.normalize_link l) = Gdelt.normalize_link l := by
  obtain ⟨hsch, hnet2, hpathhd, hh1, hh2, hh1r, hh2r, hslr2, hscl, hncl, hpcl, hrcl, hex⟩ :=
    Urllib.parse_inv l.data [] rfl
  obtain ⟨p2, par2, hparse2, hunparse2⟩ :=
    Urllib.reparse_split (Urllib.urlparse l.data []).scheme
      (Urllib.urlparse l.data []).netloc (Urllib.urlparse l.data []).path
      (Urllib.urlparse l.data []).params []
      hsch (Or.inr rfl) hnet hnet2 (hpathhd hnet) hh1 hh2 hh1r hh2r hslr2
      hscl hncl hpcl hrcl hex
  simp only [Gdelt.normalize_link]
  rw [hparse2]
  dsimp only
  rw [hunparse2]

theorem Urllib.uses_relative_sub :
    ∀ x ∈ Urllib.uses_relative, Urllib.uses_netloc.contains x = true := by decide

theorem Urllib.urljoin_absorb (b s n p par : List Char)
    (hsne : s ≠ [])
    (hs : s = [] ∨ Urllib.SchemeOK s)
    (hn : n ≠ [])
    (hnall : n.all (fun c => !Urllib.netlocDelim c) = true)
    (hp : p = [] ∨ p.headD ' ' = '/')
    (hq1p : '#' ∉ p) (hq2p : '?' ∉ p)
    (hq1r : '#' ∉ par) (hq2r : '?' ∉ par) (hslr : '/' ∉ par)
    (hcls : s.all (fun c => !Urllib.isUnsafeByte c) = true)
    (hcln : n.all (fun c => !Urllib.isUnsafeByte c) = true)
    (hclp : p.all (fun c => !Urllib.isUnsafeByte c) = true)
    (hclr : par.all (fun c => !Urllib.isUnsafeByte c) = true)
    (hsplit : ∃ p0, Urllib.splitParamsIfNeeded s p0 = (p, par)) :
    Urllib.urljoin b (Urllib.urlunparse ⟨s, n, p, par, [], []⟩) =
      Urllib.urlunparse ⟨s, n, p, par, [], []⟩ := by
  have hone : (Urllib.urlunparse ⟨s, n, p, par, [], []⟩).isEmpty = false := by
    rw [Urllib.urlunparse_shape s n p par hn]
    by_cases hse : s.isEmpty = true
    · rw [if_pos hse]
      rfl
    · rw [if_neg hse]
      rcases s with - | ⟨c, r⟩
      · exact absurd rfl hsne
      · rfl
  obtain ⟨p2, par2, hparse2, hunparse2⟩ :=
    Urllib.reparse_split s n p par (Urllib.urlparse b []).scheme
      hs (Or.inl hsne) hn hnall hp hq1p hq2p hq1r hq2r hslr hcls hcln hclp hclr hsplit
  by_cases hb : b.isEmpty = true
  · simp only [Urllib.urljoin]
    rw [if_pos hb]
  · simp only [Urllib.urljoin]
    rw [if_neg hb, if_neg (by rw [hone]; simp)]
    rw [hparse2]
    dsimp only
    by_cases hbr : (decide (s ≠ (Urllib.urlparse b []).scheme) ||
        !Urllib.uses_relative.contains s) = true
    · rw [if_pos hbr]
    · rw [if_neg hbr]
      rw [Bool.not_eq_true, Bool.or_eq_false_iff] at hbr
      obtain ⟨-, hrel⟩ := hbr
      have hrel2 : Urllib.uses_relative.contains s = true := by
        cases hx : Urllib.uses_relative.contains s
        · rw [hx] at hrel
          cases hrel
        · rfl
      have hnetc : Urllib.uses_netloc.contains s = true :=
        Urllib.uses_relative_sub _ (List.elem_iff.mp hrel2)
      have hnie : n.isEmpty = false := by
        cases hnn : n with
        | nil => exact absurd hnn hn
        | cons c r => rfl
      rw [if_pos (by rw [hnetc, hnie]; rfl)]
      exact hunparse2

theorem Yahoo.normalize_idem_scrape (l b : String)
    (hnet : (Urllib.urlparse (Urllib.urljoin b.data l.data) []).netloc ≠ [])
    (hschne : (Urllib.urlparse (Urllib.urljoin b.data l.data) []).scheme ≠ []) :
    Yahoo.normalize_link (Yahoo.normalize_link l b) b = Yahoo.normalize_link l b := by
  obtain ⟨hsch, hnet2, hpathhd, hh1, hh2, hh1r, hh2r, hslr2, hscl, hncl, hpcl, hrcl, hex⟩ :=
    Urllib.parse_inv (Urllib.urljoin b.data l.data) [] rfl
  have habs := Urllib.urljoin_absorb b.data
    (Urllib.urlparse (Urllib.urljoin b.data l.data) []).scheme
    (Urllib.urlparse (Urllib.urljoin b.data l.data) []).netloc
    (Urllib.urlparse (Urllib.urljoin b.data l.data) []).path
    (Urllib.urlparse (Urllib.urljoin b.data l.data) []).params
    hschne hsch hnet hnet2 (hpathhd hnet) hh1 hh2 hh1r hh2r hslr2 hscl hncl hpcl hrcl hex
  obtain ⟨p2, par2, hparse2, hunparse2⟩ :=
    Urllib.reparse_split (Urllib.urlparse (Urllib.urljoin b.data l.data) []).scheme
      (Urllib.urlparse (Urllib.urljoin b.data l.data) []).netloc
      (Urllib.urlparse (Urllib.urljoin b.data l.data) []).path
      (Urllib.urlparse (Urllib.urljoin b.data l.data) []).params []
      hsch (Or.inr rfl) hnet hnet2 (hpathhd hnet) hh1 hh2 hh1r hh2r hslr2
      hscl hncl hpcl hrcl hex
  simp only [Yahoo.normalize_link]
  rw [habs, hparse2]
  dsimp only
  rw [hunparse2]

/-- C5 counterexample: canonicalization is not idempotent for every link.
GDELT: `normalize_link "http://////x"` yields `http:////x`, and a second pass
collapses it further to `http://x`.  Yahoo: against the relative base `dir/`,
the link `x` canonicalizes to `dir/x`, and a second pass to `dir/dir/x`. -/
theorem C5_counterexample :
    Gdelt.normalize_link (Gdelt.normalize_link "http://////x") ≠
      Gdelt.normalize_link "http://////x" ∧
    Yahoo.normalize_link (Yahoo.normalize_link "x" "dir/") "dir/" ≠
      Yahoo.normalize_link "x" "dir/" := by
  constructor
  · decide
  · decide

/-- C5 (amended): `normalize_link` strips the query string and fragment
(e.g. `http://x.com/a?b=1#c` and `http://x.com/a` both canonicalize to
`http://x.com/a`), and it is idempotent on every link that parses with a
nonempty network location — for the scrape variant, on every link whose
resolution against the base URL parses with a nonempty network location and
scheme.  Without that authority condition idempotence can fail (see the
counterexample). -/
theorem C5_amended :
    (∀ l : String, (Urllib.urlparse l.data []).netloc ≠ [] →
      Gdelt.normalize_link (Gdelt.normalize_link l) = Gdelt.normalize_link l) ∧
    (∀ l b : String,
      (Urllib.urlparse (Urllib.urljoin b.data l.data) []).netloc ≠ [] →
      (Urllib.urlparse (Urllib.urljoin b.data l.data) []).scheme ≠ [] →
      Yahoo.normalize_link (Yahoo.normalize_link l b) b = Yahoo.normalize_link l b) ∧
    Gdelt.normalize_link "http://x.com/a?b=1#c" = Gdelt.normalize_link "http://x.com/a" ∧
    Gdelt.normalize_link "http://x.com/a" = "http://x.com/a" ∧
    Yahoo.normalize_link "http://x.com/a?b=1#c" "https://finance.yahoo.com/news" =
      Yahoo.normalize_link "http://x.com/a" "https://finance.yahoo.com/news" :=
  ⟨fun l h => Gdelt.normalize_idem_structured l h,
    fun l b h1 h2 => Yahoo.normalize_idem_scrape l b h1 h2,
    by decide, by decide, by decide⟩

/-- Witness for C5 (amended): the hypotheses hold and the idempotence follows
at the concrete link `http://x.com/a` (with base `https://finance.yahoo.com/news`
for the scrape variant). -/
theorem C5_amended_witness :
    (Urllib.urlparse ("http://x.com/a" : String).data []).netloc ≠ [] ∧
    Gdelt.normalize_link (Gdelt.normalize_link "http://x.com/a") =
      Gdelt.normalize_link "http://x.com/a" ∧
    (Urllib.urlparse (Urllib.urljoin ("https://finance.yahoo.com/news" : String).data
      ("http://x.com/a" : String).data) []).netloc ≠ [] ∧
    (Urllib.urlparse (Urllib.urljoin ("https://finance.yahoo.com/news" : String).data
      ("http://x.com/a" : String).data) []).scheme ≠ [] ∧
    Yahoo.normalize_link
      (Yahoo.normalize_link "http://x.com/a" "https://finance.yahoo.com/news")
      "https://finance.yahoo.com/news" =
      Yahoo.normalize_link "http://x.com/a" "https://finance.yahoo.com/news" :=
  ⟨by decide, C5_amended.1 "http://x.com/a" (by decide), by decide, by decide,
    C5_amended.2.1 "http://x.com/a" "https://finance.yahoo.com/news"
      (by decide) (by decide)⟩
